import Mathlib

/-!
# Verification of the scaleGen dissonance/roughness scale generator

A shallow embedding, over the real numbers, of the core numeric routines of
the scaleGen repository (JavaScript), together with theorems settling the
frozen claims about it.

Embedding conventions:
* JavaScript floating-point numbers are modelled as real numbers (`ℝ`);
  `Math.exp`, `Math.sin`, `Math.pow` become `Real.exp`, `Real.sin`, `Real.rpow`.
* JS `for (x = start; x <= end; x += inc)` loops become well-founded
  recursions (`alphaSeq`, `geomSeq`).  The JS loop diverges when the
  increment is not positive and the range is nonempty; the embedding guards
  on positivity of the increment and returns `[]` in those (unreachable in
  the repository) configurations.
* JS `arr.sort(comparator)` is modelled by the stable `List.insertionSort`.
* JS functions that `throw` are modelled with `Except String`.
* JS `options.field || default` (which replaces both `undefined` and `0` by
  the default) is modelled by `resolveNum`.
-/

set_option maxHeartbeats 1000000
set_option linter.unusedVariables false

noncomputable section

open scoped Classical

/-- A point of a dissonance curve: `{alpha, dissonance}` (src/unnamed/part_004). -/
structure MinPoint where
  alpha : ℝ
  dissonance : ℝ

/-- A scale note `{frequency, ratio, dissonance}` (src/unnamed/part_004, findScale). -/
structure ScaleNote where
  frequency : ℝ
  ratio : ℝ
  dissonance : ℝ

/-- A partial `{frequency, amplitude}` as used by the roughness model (src/roughness.js). -/
structure RoughPartial where
  frequency : ℝ
  amplitude : ℝ

/-- A point of a roughness scan: `{fundamental, totalRoughness}` (src/roughness.js). -/
structure RoughPoint where
  fundamental : ℝ
  totalRoughness : ℝ

/-! ## The Sethares dissonance model (src/unnamed/part_004, `dissmeasure`) -/

/-- One pairwise Sethares term for the (frequency, amplitude) pairs `p ≤ q` in
frequency order; constants from `dissmeasure`. -/
def pairTerm (p q : ℝ × ℝ) : ℝ :=
  let Fmin := p.1
  let Fdif := q.1 - p.1
  let a := min p.2 q.2
  let S := 0.24 / (0.0207 * Fmin + 18.96)
  a * (5 * Real.exp (-3.51 * S * Fdif) + (-5) * Real.exp (-5.75 * S * Fdif))

/-- Sum of `pairTerm` over all index pairs `i < j` of a list, mirroring the
double loop of `dissmeasure` over the sorted partial list. -/
def pairSum : List (ℝ × ℝ) → ℝ
  | [] => 0
  | p :: rest => (rest.map (fun q => pairTerm p q)).sum + pairSum rest

/-- Comparison used to sort partials by ascending frequency
(`.sort((p1, p2) => p1.f - p2.f)`). -/
def leFreq (p q : ℝ × ℝ) : Prop := p.1 ≤ q.1

instance : IsTotal (ℝ × ℝ) leFreq := ⟨fun p q => le_total p.1 q.1⟩

instance : IsTrans (ℝ × ℝ) leFreq := ⟨fun _ _ _ h h' => le_trans h h'⟩

/-- `dissmeasure(fvec, amp)` (src/unnamed/part_004 lines 7–39 and the identical
copy in src/dissonance.js): pair the two arrays, sort by frequency, and sum
the Sethares pairwise terms over all pairs. -/
def dissmeasure (fvec amp : List ℝ) : ℝ :=
  pairSum (List.insertionSort leFreq (fvec.zip amp))

/-! ## The roughness model (src/roughness.js, `roughness`) -/

/-- `roughness(f1, f2)` (src/roughness.js lines 7–23). -/
def roughness (f1 f2 : ℝ) : ℝ :=
  let f_low := min f1 f2
  let f_high := max f1 f2
  let distance := f_high - f_low
  let sharpness := 0.24 / (0.021 * f_low + 19)
  let x := distance / sharpness
  let rough := Real.exp (-3.5 * x) * (Real.sin (Real.pi * x)) ^ 2
  max 0 (min 1 rough)

/-- C7: `roughness(f, f) = 0` for `f > 0`, and `roughness` always lies in
`[0, 1]`.  The claim's positivity hypotheses are recorded even where the
computation does not need them. -/
theorem roughness_self_zero_and_range (f f1 f2 : ℝ) (hf : 0 < f)
    (hf1 : 0 < f1) (hf2 : 0 < f2) :
    roughness f f = 0 ∧ 0 ≤ roughness f1 f2 ∧ roughness f1 f2 ≤ 1 := by
  refine ⟨?_, ?_, ?_⟩
  · unfold roughness
    simp
  · unfold roughness
    positivity
  · unfold roughness
    simp only
    have h1 : min 1 (Real.exp (-3.5 * ((max f1 f2 - min f1 f2) / (0.24 / (0.021 * min f1 f2 + 19)))) *
        (Real.sin (Real.pi * ((max f1 f2 - min f1 f2) / (0.24 / (0.021 * min f1 f2 + 19))))) ^ 2) ≤ 1 :=
      min_le_left _ _
    exact max_le (by norm_num) h1

/-- Witness for C7 at `f = f1 = f2 = 1`. -/
theorem roughness_self_zero_and_range_witness :
    roughness 1 1 = 0 ∧ 0 ≤ roughness 1 1 ∧ roughness 1 1 ≤ 1 :=
  roughness_self_zero_and_range 1 1 1 one_pos one_pos one_pos

/-! ## The alpha sweep loop

`generateDissonanceCurve` iterates `for (alpha = start; alpha <= end; alpha += inc)`.
`alphaSeq endV inc start` is the list of visited alpha values. -/

/-- Alpha values visited by the JS loop.  The loop diverges in JS when
`inc ≤ 0` and `start ≤ end`; the guard on `0 < inc` keeps the function total
and agrees with the loop in every terminating configuration. -/
def alphaSeq (endV inc : ℝ) (alpha : ℝ) : List ℝ :=
  if h : alpha ≤ endV ∧ 0 < inc then
    alpha :: alphaSeq endV inc (alpha + inc)
  else []
termination_by Nat.floor ((endV - alpha) / inc + 1)
decreasing_by
  obtain ⟨h1, h2⟩ := h
  have ht : 0 ≤ (endV - alpha) / inc := div_nonneg (by linarith) h2.le
  have key : (endV - (alpha + inc)) / inc + 1 = (endV - alpha) / inc := by
    field_simp
    ring
  rw [key, Nat.floor_add_one ht]
  omega

/-- Closed form of the loop: it visits `start + i * inc` for
`i = 0, …, ⌊(endV - start)/inc⌋`. -/
theorem alphaSeq_eq_map (endV inc : ℝ) (hinc : 0 < inc) (alpha : ℝ) :
    alphaSeq endV inc alpha =
      (List.range (if alpha ≤ endV then Nat.floor ((endV - alpha) / inc) + 1 else 0)).map
        (fun i : ℕ => alpha + (i : ℝ) * inc) := by
  by_cases hle : alpha ≤ endV
  · rw [alphaSeq, dif_pos ⟨hle, hinc⟩, alphaSeq_eq_map endV inc hinc (alpha + inc)]
    rw [if_pos hle, List.range_succ_eq_map]
    by_cases hle2 : alpha + inc ≤ endV
    · have ht : 0 ≤ (endV - (alpha + inc)) / inc :=
        div_nonneg (by linarith) hinc.le
      have key : (endV - alpha) / inc = (endV - (alpha + inc)) / inc + 1 := by
        field_simp
        ring
      rw [if_pos hle2, key, Nat.floor_add_one ht]
      simp only [List.map_cons, List.map_map]
      refine congrArg₂ _ (by norm_num) (List.map_congr_left ?_)
      intro i _
      simp only [Function.comp_apply]
      push_cast
      ring
    · have hzero : Nat.floor ((endV - alpha) / inc) = 0 := by
        apply Nat.floor_eq_zero.2
        rw [div_lt_one hinc]
        linarith
      rw [if_neg hle2, hzero]
      simp
  · rw [alphaSeq, dif_neg (by tauto), if_neg hle]
    simp
termination_by Nat.floor ((endV - alpha) / inc + 1)
decreasing_by
  have ht : 0 ≤ (endV - alpha) / inc := div_nonneg (by linarith) hinc.le
  have key : (endV - (alpha + inc)) / inc + 1 = (endV - alpha) / inc := by
    field_simp
    ring
  rw [key, Nat.floor_add_one ht]
  omega

/-! ## Local minima of a curve (src/unnamed/part_004, `findLocalMinima`) -/

/-- The indices reported by `findLocalMinima`: the boundary checks
`d[0] < d[1]` and `d[len-1] < d[len-2]`, and the interior scan
`d[i] < d[i-1] && d[i] < d[i+1]` for `1 ≤ i ≤ len-2`.  For `len < 2` every JS
comparison involves `undefined` and fails, so the result is empty. -/
def minimaIndices (d : List ℝ) : List ℕ :=
  if d.length < 2 then []
  else
    (if d.getD 0 0 < d.getD 1 0 then [0] else []) ++
    (((List.range (d.length - 2)).map (· + 1)).filter
      (fun i => d.getD i 0 < d.getD (i - 1) 0 ∧ d.getD i 0 < d.getD (i + 1) 0)) ++
    (if d.getD (d.length - 1) 0 < d.getD (d.length - 2) 0 then [d.length - 1] else [])

/-- `findLocalMinima(alphas, dissonances)` (src/unnamed/part_004 lines 77–94 and
the identical copy in src/dissonance.js). -/
def findLocalMinima (alphas d : List ℝ) : List MinPoint :=
  if d.length < 2 then []
  else
    (if d.getD 0 0 < d.getD 1 0 then [⟨alphas.getD 0 0, d.getD 0 0⟩] else []) ++
    (((List.range (d.length - 2)).map (· + 1)).filterMap
      (fun i => if d.getD i 0 < d.getD (i - 1) 0 ∧ d.getD i 0 < d.getD (i + 1) 0
        then some (⟨alphas.getD i 0, d.getD i 0⟩ : MinPoint) else none)) ++
    (if d.getD (d.length - 1) 0 < d.getD (d.length - 2) 0 then
      [(⟨alphas.getD (alphas.length - 1) 0, d.getD (d.length - 1) 0⟩ : MinPoint)] else [])

theorem filterMap_if_eq_map_filter {α β : Type*} (p : α → Prop) [DecidablePred p] (f : α → β) :
    ∀ l : List α,
      l.filterMap (fun x => if p x then some (f x) else none) =
        (l.filter (fun x => p x)).map f
  | [] => rfl
  | a :: l => by
    by_cases h : p a <;>
      simp [List.filterMap_cons, List.filter_cons, h, filterMap_if_eq_map_filter p f l]

/-- Forward characterization of membership in `minimaIndices`. -/
theorem of_mem_minimaIndices {d : List ℝ} {i : ℕ} (h : i ∈ minimaIndices d) :
    (i = 0 ∧ d.getD 0 0 < d.getD 1 0) ∨
    (1 ≤ i ∧ i < d.length - 1 ∧
      d.getD i 0 < d.getD (i - 1) 0 ∧ d.getD i 0 < d.getD (i + 1) 0) ∨
    (i = d.length - 1 ∧ 2 ≤ d.length ∧
      d.getD (d.length - 1) 0 < d.getD (d.length - 2) 0) := by
  unfold minimaIndices at h
  by_cases hlen : d.length < 2
  · rw [if_pos hlen] at h
    simp at h
  · rw [if_neg hlen] at h
    push_neg at hlen
    rcases List.mem_append.1 h with h' | h'
    · rcases List.mem_append.1 h' with h0 | hmid
      · by_cases hc : d.getD 0 0 < d.getD 1 0
        · rw [if_pos hc] at h0
          simp at h0
          exact Or.inl ⟨h0, hc⟩
        · rw [if_neg hc] at h0
          simp at h0
      · rcases List.mem_filter.1 hmid with ⟨hr, hc⟩
        rcases List.mem_map.1 hr with ⟨j, hj, rfl⟩
        have hj' := List.mem_range.1 hj
        have hc' := of_decide_eq_true hc
        exact Or.inr (Or.inl ⟨by omega, by omega, hc'.1, hc'.2⟩)
    · by_cases hc : d.getD (d.length - 1) 0 < d.getD (d.length - 2) 0
      · rw [if_pos hc] at h'
        simp at h'
        exact Or.inr (Or.inr ⟨h', hlen, hc⟩)
      · rw [if_neg hc] at h'
        simp at h'

/-- C6: no two adjacent curve indices are both reported as local minima, and
`findLocalMinima` returns exactly the records at `minimaIndices`. -/
theorem findLocalMinima_no_adjacent (alphas d : List ℝ) (hd : 2 ≤ d.length)
    (ha : alphas.length = d.length) :
    (∀ i, i ∈ minimaIndices d → i + 1 ∉ minimaIndices d) ∧
    findLocalMinima alphas d =
      (minimaIndices d).map (fun i => (⟨alphas.getD i 0, d.getD i 0⟩ : MinPoint)) := by
  constructor
  · intro i hi hi1
    rcases of_mem_minimaIndices hi with ⟨rfl, hc⟩ | ⟨h1, h2, hc1, hc2⟩ | ⟨he, h2, hc⟩ <;>
      rcases of_mem_minimaIndices hi1 with ⟨he', hc'⟩ | ⟨h1', h2', hc1', hc2'⟩ | ⟨he', h2', hc'⟩
    · omega
    · simp only [Nat.add_sub_cancel] at hc1'
      exact absurd hc (lt_asymm hc1')
    · have hl2 : d.length = 2 := by omega
      rw [hl2] at hc'
      exact absurd hc (lt_asymm hc')
    · omega
    · exact absurd hc2 (lt_asymm (by simpa using hc1'))
    · have hieq : i + 1 = d.length - 1 := he'
      have h2eq : d.length - 2 = i := by omega
      rw [← hieq, h2eq] at hc'
      exact absurd hc2 (lt_asymm hc')
    · omega
    · omega
    · omega
  · have h2 : ¬ d.length < 2 := by omega
    unfold findLocalMinima minimaIndices
    rw [if_neg h2, if_neg h2, List.map_append, List.map_append]
    refine congrArg₂ _ (congrArg₂ _ ?_ ?_) ?_
    · by_cases hc : d.getD 0 0 < d.getD 1 0
      · rw [if_pos hc, if_pos hc]
        simp
      · rw [if_neg hc, if_neg hc]
        simp
    · rw [filterMap_if_eq_map_filter
        (fun i => d.getD i 0 < d.getD (i - 1) 0 ∧ d.getD i 0 < d.getD (i + 1) 0)
        (fun i => (⟨alphas.getD i 0, d.getD i 0⟩ : MinPoint))]
    · by_cases hc : d.getD (d.length - 1) 0 < d.getD (d.length - 2) 0
      · rw [if_pos hc, if_pos hc]
        simp [ha]
      · rw [if_neg hc, if_neg hc]
        simp

/-- Witness for C6 on the two-point curve `alphas = [0, 1]`, `d = [5, 7]`. -/
theorem findLocalMinima_no_adjacent_witness :
    2 ≤ ([5, 7] : List ℝ).length ∧ ([0, 1] : List ℝ).length = ([5, 7] : List ℝ).length ∧
    (∀ i, i ∈ minimaIndices [5, 7] → i + 1 ∉ minimaIndices [5, 7]) :=
  ⟨by simp, by simp,
    (findLocalMinima_no_adjacent [0, 1] [5, 7] (by simp) (by simp)).1⟩

/-- The pair of parallel arrays returned by `generateDissonanceCurve`. -/
structure Curve where
  alphas : List ℝ
  dissonances : List ℝ

/-- The dissonance computed at a single alpha inside the curve loop: scale the
swept partials by `alpha`, concatenate with the reference set (which defaults
to the swept set itself when absent), and apply `dissmeasure`. -/
def curvePointValue (freq amp : List ℝ) (ref : Option (List ℝ × List ℝ)) (alpha : ℝ) : ℝ :=
  let sweepFreq := freq.map (fun v => v * alpha)
  let base := ref.getD (freq, amp)
  dissmeasure (base.1 ++ sweepFreq) (base.2 ++ amp)

/-- `generateDissonanceCurve(freq, amp, start, end, inc, refFreq, refAmp)`
(src/unnamed/part_004 lines 53–69; src/dissonance.js is the `ref = none`
special case). -/
def generateDissonanceCurve (freq amp : List ℝ) (start endV inc : ℝ)
    (ref : Option (List ℝ × List ℝ)) : Curve :=
  let alphas := alphaSeq endV inc start
  { alphas := alphas, dissonances := alphas.map (curvePointValue freq amp ref) }

/-- C5: for `start ≤ end` and `inc > 0` the returned alphas are exactly
`start + i * inc` (index-stepped form), strictly increasing, and the curve
length is exactly `⌊(end - start)/inc⌋ + 1` (so in particular within the
claimed ±1 tolerance); the dissonance array has the same length. -/
theorem generateDissonanceCurve_spec (freq amp : List ℝ) (start endV inc : ℝ)
    (ref : Option (List ℝ × List ℝ)) (h1 : start ≤ endV) (h2 : 0 < inc) :
    (generateDissonanceCurve freq amp start endV inc ref).alphas.length =
        Nat.floor ((endV - start) / inc) + 1 ∧
    (∀ i, i < (generateDissonanceCurve freq amp start endV inc ref).alphas.length →
      (generateDissonanceCurve freq amp start endV inc ref).alphas.getD i 0 =
        start + i * inc) ∧
    List.Sorted (· < ·) (generateDissonanceCurve freq amp start endV inc ref).alphas ∧
    (generateDissonanceCurve freq amp start endV inc ref).dissonances.length =
      (generateDissonanceCurve freq amp start endV inc ref).alphas.length := by
  have hseq := alphaSeq_eq_map endV inc h2 start
  rw [if_pos h1] at hseq
  refine ⟨?_, ?_, ?_, ?_⟩
  · simp [generateDissonanceCurve, hseq]
  · intro i hi
    simp only [generateDissonanceCurve, hseq, List.length_map, List.length_range] at hi ⊢
    rw [List.getD_eq_getElem _ _ (by simpa using hi)]
    simp
  · simp only [generateDissonanceCurve, hseq]
    refine List.Pairwise.map _ ?_ (List.pairwise_lt_range _)
    intro a b hab
    have : (a : ℝ) < b := by exact_mod_cast hab
    nlinarith
  · simp [generateDissonanceCurve]


/-! ## Minima refinement (src/unnamed/part_004, `refineMinimaAndGetCurves`) -/

/-- Result record per coarse minimum: the refined minimum and its fine curve. -/
structure RefResult where
  minimum : MinPoint
  curve : List MinPoint

/-- One step of the running-minimum scan of the refinement loop.  The state is
`(minAlpha, minDissonance)`; `minDissonance = none` models the initial JS
`Infinity`, below which every real value compares true. -/
def refineFold (st : ℝ × Option ℝ) (pt : MinPoint) : ℝ × Option ℝ :=
  match st.2 with
  | none => (pt.alpha, some pt.dissonance)
  | some v => if pt.dissonance < v then (pt.alpha, some pt.dissonance) else st

/-- Refinement of a single coarse minimum (the body of the loop of
`refineMinimaAndGetCurves`, src/unnamed/part_004 lines 109–138): re-scan
`[alpha - width + offset, alpha + width + offset]` at the fine increment and
take the running minimum; the result is dropped when the JS
`minAlpha !== -1` sentinel check fails. -/
def refineOne (freq amp : List ℝ) (ref : Option (List ℝ × List ℝ))
    (searchWidth increment offset : ℝ) (cm : MinPoint) : Option RefResult :=
  let start := cm.alpha - searchWidth + offset
  let endV := cm.alpha + searchWidth + offset
  let c := generateDissonanceCurve freq amp start endV increment ref
  let curve := (c.alphas.zip c.dissonances).map (fun p => (⟨p.1, p.2⟩ : MinPoint))
  let res := curve.foldl refineFold (-1, none)
  if res.1 ≠ -1 then some ⟨⟨res.1, res.2.getD 0⟩, curve⟩ else none

/-- `refineMinimaAndGetCurves` processes each coarse minimum in order,
pushing one refined result for each that passes the sentinel check. -/
def refineMinimaAndGetCurves (freq amp : List ℝ) (coarseMinima : List MinPoint)
    (searchWidth increment : ℝ) (ref : Option (List ℝ × List ℝ))
    (offset : ℝ) : List RefResult :=
  coarseMinima.filterMap (refineOne freq amp ref searchWidth increment offset)

theorem zip_self_map {α β : Type*} (f : α → β) :
    ∀ l : List α, l.zip (l.map f) = l.map (fun a => (a, f a))
  | [] => rfl
  | a :: l => by simp [zip_self_map f l]

/-- Fused form of `refineOne`: the zipped curve is a single map over the
window's alpha samples. -/
theorem refineOne_eq (freq amp : List ℝ) (ref : Option (List ℝ × List ℝ))
    (w inc offset : ℝ) (cm : MinPoint) :
    refineOne freq amp ref w inc offset cm =
      if (((alphaSeq (cm.alpha + w + offset) inc (cm.alpha - w + offset)).map
            (fun a => (⟨a, curvePointValue freq amp ref a⟩ : MinPoint))).foldl
            refineFold (-1, none)).1 ≠ -1
      then some ⟨⟨(((alphaSeq (cm.alpha + w + offset) inc (cm.alpha - w + offset)).map
            (fun a => (⟨a, curvePointValue freq amp ref a⟩ : MinPoint))).foldl
            refineFold (-1, none)).1,
          (((alphaSeq (cm.alpha + w + offset) inc (cm.alpha - w + offset)).map
            (fun a => (⟨a, curvePointValue freq amp ref a⟩ : MinPoint))).foldl
            refineFold (-1, none)).2.getD 0⟩,
          (alphaSeq (cm.alpha + w + offset) inc (cm.alpha - w + offset)).map
            (fun a => (⟨a, curvePointValue freq amp ref a⟩ : MinPoint))⟩
      else none := by
  unfold refineOne
  simp only [generateDissonanceCurve]
  rw [zip_self_map, List.map_map]
  rfl

theorem refineFold_result (l : List MinPoint) :
    ∀ st : ℝ × Option ℝ, l.foldl refineFold st = st ∨
      ∃ pt ∈ l, (l.foldl refineFold st).1 = pt.alpha ∧
        (l.foldl refineFold st).2 = some pt.dissonance := by
  induction l with
  | nil => intro st; exact Or.inl rfl
  | cons pt rest ih =>
    intro st
    rw [List.foldl_cons]
    rcases ih (refineFold st pt) with h | ⟨q, hq, h1, h2⟩
    · rcases hst : st.2 with _ | v
      · refine Or.inr ⟨pt, List.mem_cons_self _ _, ?_, ?_⟩ <;>
          rw [h] <;> simp [refineFold, hst]
      · by_cases hlt : pt.dissonance < v
        · refine Or.inr ⟨pt, List.mem_cons_self _ _, ?_, ?_⟩ <;>
            rw [h] <;> simp [refineFold, hst, hlt]
        · left
          rw [h]
          simp [refineFold, hst, hlt]
    · exact Or.inr ⟨q, List.mem_cons_of_mem _ hq, h1, h2⟩

theorem refineFold_le_init (l : List MinPoint) :
    ∀ (st : ℝ × Option ℝ) (u v : ℝ), st.2 = some u →
      (l.foldl refineFold st).2 = some v → v ≤ u := by
  induction l with
  | nil =>
    intro st u v h1 h2
    rw [List.foldl_nil, h1] at h2
    injection h2 with h
    exact le_of_eq h.symm
  | cons pt rest ih =>
    intro st u v h1 h2
    rw [List.foldl_cons] at h2
    by_cases hlt : pt.dissonance < u
    · have h2' : (refineFold st pt).2 = some pt.dissonance := by
        simp [refineFold, h1, hlt]
      exact le_trans (ih _ _ _ h2' h2) hlt.le
    · have heq : refineFold st pt = st := by
        simp [refineFold, h1, hlt]
      rw [heq] at h2
      exact ih _ _ _ h1 h2

theorem refineFold_min (l : List MinPoint) :
    ∀ (st : ℝ × Option ℝ) (v : ℝ), (l.foldl refineFold st).2 = some v →
      ∀ pt ∈ l, v ≤ pt.dissonance := by
  induction l with
  | nil => intro st v _ pt hpt; simp at hpt
  | cons q rest ih =>
    intro st v hv pt hpt
    rw [List.foldl_cons] at hv
    rcases List.mem_cons.1 hpt with rfl | hmem
    · have hsome : ∃ u, (refineFold st pt).2 = some u ∧ u ≤ pt.dissonance := by
        rcases hst : st.2 with _ | w
        · exact ⟨pt.dissonance, by simp [refineFold, hst], le_rfl⟩
        · by_cases hlt : pt.dissonance < w
          · exact ⟨pt.dissonance, by simp [refineFold, hst, hlt], le_rfl⟩
          · exact ⟨w, by simp [refineFold, hst, hlt], (not_lt.1 hlt)⟩
      obtain ⟨u, hu, hle⟩ := hsome
      exact le_trans (refineFold_le_init rest _ u v hu hv) hle
    · exact ih _ _ hv pt hmem

/-- Whenever `refineOne` returns a result, its curve is the window scan, its
minimum dissonance is one of the window's curve values, and it is a lower
bound for all of them. -/
theorem refineOne_spec (freq amp : List ℝ) (ref : Option (List ℝ × List ℝ))
    (w inc offset : ℝ) (cm : MinPoint) (r : RefResult)
    (hr : refineOne freq amp ref w inc offset cm = some r) :
    r.curve = (alphaSeq (cm.alpha + w + offset) inc (cm.alpha - w + offset)).map
        (fun a => (⟨a, curvePointValue freq amp ref a⟩ : MinPoint)) ∧
    (∃ pt ∈ r.curve, r.minimum.dissonance = pt.dissonance) ∧
    (∀ pt ∈ r.curve, r.minimum.dissonance ≤ pt.dissonance) := by
  rw [refineOne_eq] at hr
  set curve := (alphaSeq (cm.alpha + w + offset) inc (cm.alpha - w + offset)).map
      (fun a => (⟨a, curvePointValue freq amp ref a⟩ : MinPoint)) with hcurve
  by_cases hcond : (curve.foldl refineFold (-1, none)).1 ≠ -1
  · rw [if_pos hcond] at hr
    rcases refineFold_result curve (-1, none) with h | ⟨pt, hpt, h1, h2⟩
    · rw [h] at hcond
      simp at hcond
    · have hrv : r = ⟨⟨(curve.foldl refineFold (-1, none)).1,
          (curve.foldl refineFold (-1, none)).2.getD 0⟩, curve⟩ := by
        exact (Option.some_inj.1 hr).symm
      refine ⟨by rw [hrv], ⟨pt, by rw [hrv]; exact hpt, ?_⟩, ?_⟩
      · rw [hrv]
        simp [h2]
      · intro q hq
        rw [hrv] at hq ⊢
        simp only
        rw [h2]
        simp only [Option.getD_some]
        exact refineFold_min curve _ _ h2 q hq
  · rw [if_neg hcond] at hr
    exact absurd hr (by simp)

/-- C4 (amended): when the search width is a whole multiple of the fine
increment — as with the repository's fixed `0.01` / `0.0005` — the seeding
alpha is itself a fine sample, so a refined minimum never exceeds a coarse
minimum whose recorded dissonance is the curve value at its alpha. -/
theorem refineOne_le_of_aligned (freq amp : List ℝ) (ref : Option (List ℝ × List ℝ))
    (inc : ℝ) (k : ℕ) (cm : MinPoint) (r : RefResult) (hinc : 0 < inc)
    (hcm : cm.dissonance = curvePointValue freq amp ref cm.alpha)
    (hr : refineOne freq amp ref ((k : ℝ) * inc) inc 0 cm = some r) :
    r.minimum.dissonance ≤ cm.dissonance := by
  obtain ⟨hcurve, _, hmin⟩ := refineOne_spec freq amp ref ((k : ℝ) * inc) inc 0 cm r hr
  have hle : cm.alpha - (k : ℝ) * inc + 0 ≤ cm.alpha + (k : ℝ) * inc + 0 := by
    have : (0:ℝ) ≤ (k : ℝ) * inc := by positivity
    linarith
  have hmem : cm.alpha ∈ alphaSeq (cm.alpha + (k : ℝ) * inc + 0) inc
      (cm.alpha - (k : ℝ) * inc + 0) := by
    rw [alphaSeq_eq_map _ _ hinc, if_pos hle]
    have hfl : ((cm.alpha + (k : ℝ) * inc + 0) - (cm.alpha - (k : ℝ) * inc + 0)) / inc
        = ((2 * k : ℕ) : ℝ) := by
      push_cast
      field_simp
      ring
    rw [hfl, Nat.floor_natCast]
    refine List.mem_map.2 ⟨k, List.mem_range.2 (by omega), ?_⟩
    ring
  have hptmem : (⟨cm.alpha, curvePointValue freq amp ref cm.alpha⟩ : MinPoint) ∈ r.curve := by
    rw [hcurve]
    exact List.mem_map.2 ⟨cm.alpha, hmem, rfl⟩
  have := hmin _ hptmem
  rw [hcm]
  exact this

/-- Positivity of a single Sethares pair term for distinct frequencies. -/
theorem pairTerm_pos (f1 a1 f2 a2 : ℝ) (hf : f1 < f2) (ha1 : 0 < a1) (ha2 : 0 < a2)
    (hden : 0 < 0.0207 * f1 + 18.96) : 0 < pairTerm (f1, a1) (f2, a2) := by
  unfold pairTerm
  simp only
  have hS : 0 < 0.24 / (0.0207 * f1 + 18.96) := by positivity
  have hFdif : 0 < f2 - f1 := by linarith
  have hexp : Real.exp (-5.75 * (0.24 / (0.0207 * f1 + 18.96)) * (f2 - f1)) <
      Real.exp (-3.51 * (0.24 / (0.0207 * f1 + 18.96)) * (f2 - f1)) := by
    apply Real.exp_lt_exp.2
    nlinarith
  have hmin : 0 < min a1 a2 := lt_min ha1 ha2
  nlinarith [hexp, hmin]

/-- A Sethares pair term at zero frequency difference is exactly 0. -/
theorem pairTerm_self (f a1 a2 : ℝ) : pairTerm (f, a1) (f, a2) = 0 := by
  unfold pairTerm
  simp only [sub_self, mul_zero, Real.exp_zero]
  ring

/-- The curve value of the two-partial system `freq = amp = [1]`,
`ref = ([1], [1])` is a single pair term. -/
theorem cpv_pair (α : ℝ) : curvePointValue [1] [1] (some ([1], [1])) α =
    if (1:ℝ) ≤ 1 * α then pairTerm (1, 1) (1 * α, 1) else pairTerm (1 * α, 1) (1, 1) := by
  unfold curvePointValue dissmeasure
  simp only [Option.getD_some, List.map_cons, List.map_nil, List.cons_append, List.nil_append,
    List.zip_cons_cons, List.zip_nil_left, List.insertionSort, List.orderedInsert]
  by_cases h : (1:ℝ) ≤ 1 * α
  · rw [if_pos (show leFreq (1, 1) (1 * α, 1) from h), if_pos h]
    simp only [pairSum, List.map_cons, List.map_nil, List.sum_cons, List.sum_nil]
    ring
  · rw [if_neg (show ¬ leFreq (1, 1) (1 * α, 1) from h), if_neg h]
    simp only [pairSum, List.map_cons, List.map_nil, List.sum_cons, List.sum_nil]
    ring

theorem cpv_pair_zero : curvePointValue [1] [1] (some ([1], [1])) 1 = 0 := by
  rw [cpv_pair, if_pos (by norm_num)]
  rw [show (1:ℝ) * 1 = 1 by norm_num]
  exact pairTerm_self 1 1 1

theorem cpv_pair_pos (α : ℝ) (hα : 0 < α) (hne : α ≠ 1) :
    0 < curvePointValue [1] [1] (some ([1], [1])) α := by
  rw [cpv_pair]
  rcases lt_or_gt_of_ne hne with h | h
  · rw [if_neg (by nlinarith)]
    exact pairTerm_pos (1 * α) 1 1 1 (by nlinarith) one_pos one_pos (by nlinarith)
  · rw [if_pos (by nlinarith)]
    exact pairTerm_pos 1 1 (1 * α) 1 (by nlinarith) one_pos one_pos (by norm_num)

/-- C4 counterexample: the claim as stated (any positive `searchWidth` and
fine increment) is false.  With `freq = amp = [1]`, reference `([1], [1])`,
the genuine coarse minimum `⟨1, 0⟩` (dissonance equals the curve value at
alpha 1), `searchWidth = 0.003` and `increment = 0.002`, the refinement
window samples only the alphas `0.997, 0.999, 1.001, 1.003`, each of strictly
positive dissonance, so the refined minimum exceeds the coarse one. -/
theorem refineOne_claim_counterexample : ¬ (∀ (freq amp : List ℝ)
    (ref : Option (List ℝ × List ℝ)) (w inc : ℝ) (cm : MinPoint) (r : RefResult),
    0 < w → 0 < inc → cm.dissonance = curvePointValue freq amp ref cm.alpha →
    refineOne freq amp ref w inc 0 cm = some r →
    r.minimum.dissonance ≤ cm.dissonance) := by
  intro H
  set ref : Option (List ℝ × List ℝ) := some ([1], [1]) with href
  set cm : MinPoint := ⟨1, curvePointValue [1] [1] ref 1⟩ with hcm
  have hinc : (0:ℝ) < 0.002 := by norm_num
  have hle : cm.alpha - 0.003 + 0 ≤ cm.alpha + 0.003 + 0 := by
    rw [hcm]; norm_num
  have halphas : ∀ x ∈ alphaSeq (cm.alpha + 0.003 + 0) 0.002 (cm.alpha - 0.003 + 0),
      0 < x ∧ x ≠ 1 := by
    intro x hx
    rw [alphaSeq_eq_map _ _ hinc, if_pos hle] at hx
    rcases List.mem_map.1 hx with ⟨i, _, rfl⟩
    constructor
    · rw [hcm]
      simp only
      have : (0:ℝ) ≤ (i:ℝ) * 0.002 := by positivity
      norm_num
      linarith
    · intro hx1
      rw [hcm] at hx1
      simp only at hx1
      have h2i : ((2 * i : ℕ) : ℝ) = 3 := by
        push_cast
        nlinarith [hx1]
      have : (2 * i : ℕ) = 3 := by exact_mod_cast h2i
      omega
  -- the refinement returns a result
  have hnonempty : alphaSeq (cm.alpha + 0.003 + 0) 0.002 (cm.alpha - 0.003 + 0) ≠ [] := by
    rw [alphaSeq_eq_map _ _ hinc, if_pos hle]
    simp
  set curve := (alphaSeq (cm.alpha + 0.003 + 0) 0.002 (cm.alpha - 0.003 + 0)).map
      (fun a => (⟨a, curvePointValue [1] [1] ref a⟩ : MinPoint)) with hcurvedef
  have hcne : curve ≠ [] := by
    rw [hcurvedef]
    simpa using hnonempty
  have hres := refineFold_result curve (-1, none)
  rcases hres with h | ⟨pt, hpt, h1, h2⟩
  · -- impossible: a nonempty fold starting from `none` ends with `some`
    rcases List.exists_cons_of_ne_nil hcne with ⟨q, t, hqt⟩
    rw [hqt] at h
    rw [List.foldl_cons] at h
    have hsnd := congrArg Prod.snd h
    rcases refineFold_result t (refineFold (-1, none) q) with h' | ⟨q', _, _, h2'⟩
    · rw [h'] at hsnd
      simp [refineFold] at hsnd
    · rw [h2'] at hsnd
      simp at hsnd
  · -- the fold ends at some curve point `pt`
    have hptalpha : 0 < pt.alpha ∧ pt.alpha ≠ 1 ∧
        pt.dissonance = curvePointValue [1] [1] ref pt.alpha := by
      rw [hcurvedef] at hpt
      rcases List.mem_map.1 hpt with ⟨a, ha, rfl⟩
      exact ⟨(halphas a ha).1, (halphas a ha).2, rfl⟩
    have hcond : (curve.foldl refineFold (-1, none)).1 ≠ -1 := by
      rw [h1]
      have := hptalpha.1
      intro hfalse
      rw [hfalse] at this
      linarith
    have hrsome : refineOne [1] [1] ref 0.003 0.002 0 cm = some
        ⟨⟨(curve.foldl refineFold (-1, none)).1,
          (curve.foldl refineFold (-1, none)).2.getD 0⟩, curve⟩ := by
      rw [refineOne_eq, ← hcurvedef, if_pos hcond]
    have happlied := H [1] [1] ref 0.003 0.002 cm _ (by norm_num) hinc rfl hrsome
    simp only at happlied
    rw [h2] at happlied
    simp only [Option.getD_some] at happlied
    have hzero : curvePointValue [1] [1] ref 1 = 0 := by
      rw [href]
      exact cpv_pair_zero
    rw [hzero] at happlied
    have hpos : 0 < pt.dissonance := by
      rw [hptalpha.2.2, href]
      exact cpv_pair_pos pt.alpha hptalpha.1 hptalpha.2.1
    linarith

/-- Witness for the amended C4 theorem at `freq = amp = [1]`, `ref = none`,
`inc = 1`, `k = 0` (single-sample window at the seeding alpha). -/
theorem refineOne_le_of_aligned_witness :
    (0:ℝ) < 1 ∧
    ((refineOne [1] [1] none (((0:ℕ) : ℝ) * 1) 1 0
        ⟨1, curvePointValue [1] [1] none 1⟩).getD
        ⟨⟨0, 0⟩, []⟩).minimum.dissonance ≤
      (⟨1, curvePointValue [1] [1] none 1⟩ : MinPoint).dissonance := by
  have hinc : (0:ℝ) < 1 := one_pos
  have hle : (1:ℝ) - ((0:ℕ):ℝ) * 1 + 0 ≤ 1 + ((0:ℕ):ℝ) * 1 + 0 := by norm_num
  set cm : MinPoint := ⟨1, curvePointValue [1] [1] none 1⟩ with hcm
  have hnonempty : alphaSeq (cm.alpha + ((0:ℕ):ℝ) * 1 + 0) 1 (cm.alpha - ((0:ℕ):ℝ) * 1 + 0) ≠ [] := by
    rw [alphaSeq_eq_map _ _ hinc, if_pos (by rw [hcm]; exact hle)]
    simp
  set curve := (alphaSeq (cm.alpha + ((0:ℕ):ℝ) * 1 + 0) 1 (cm.alpha - ((0:ℕ):ℝ) * 1 + 0)).map
      (fun a => (⟨a, curvePointValue [1] [1] none a⟩ : MinPoint)) with hcurvedef
  have hcne : curve ≠ [] := by
    rw [hcurvedef]
    simpa using hnonempty
  have halphas : ∀ x ∈ alphaSeq (cm.alpha + ((0:ℕ):ℝ) * 1 + 0) 1 (cm.alpha - ((0:ℕ):ℝ) * 1 + 0),
      0 < x := by
    intro x hx
    rw [alphaSeq_eq_map _ _ hinc, if_pos (by rw [hcm]; exact hle)] at hx
    rcases List.mem_map.1 hx with ⟨i, _, rfl⟩
    rw [hcm]
    simp only
    have : (0:ℝ) ≤ (i:ℝ) * 1 := by positivity
    norm_num
    linarith
  rcases refineFold_result curve (-1, none) with h | ⟨pt, hpt, h1, h2⟩
  · rcases List.exists_cons_of_ne_nil hcne with ⟨q, t, hqt⟩
    rw [hqt, List.foldl_cons] at h
    have hsnd := congrArg Prod.snd h
    rcases refineFold_result t (refineFold (-1, none) q) with h' | ⟨q', _, _, h2'⟩
    · rw [h'] at hsnd
      simp [refineFold] at hsnd
    · rw [h2'] at hsnd
      simp at hsnd
  · have hptalpha : 0 < pt.alpha := by
      rw [hcurvedef] at hpt
      rcases List.mem_map.1 hpt with ⟨a, ha, rfl⟩
      exact halphas a ha
    have hcond : (curve.foldl refineFold (-1, none)).1 ≠ -1 := by
      rw [h1]
      intro hfalse
      rw [hfalse] at hptalpha
      linarith
    have hrsome : refineOne [1] [1] none (((0:ℕ):ℝ) * 1) 1 0 cm = some
        ⟨⟨(curve.foldl refineFold (-1, none)).1,
          (curve.foldl refineFold (-1, none)).2.getD 0⟩, curve⟩ := by
      rw [refineOne_eq, ← hcurvedef, if_pos hcond]
    have := refineOne_le_of_aligned [1] [1] none 1 0 cm _ one_pos rfl hrsome
    refine ⟨one_pos, ?_⟩
    rw [hrsome]
    simpa using this


/-! ## Scale selection (src/unnamed/part_004 `findScale` lines 151–214 and
src/buildScale.js `findScaleInRange` lines 85–146; the two bodies are
identical except for how the sweep range is chosen) -/

instance : Inhabited ScaleNote := ⟨⟨0, 0, 0⟩⟩

/-- `candidateNotes.sort((a, b) => a.frequency - b.frequency)`. -/
def noteByFreq (a b : ScaleNote) : Prop := a.frequency ≤ b.frequency

instance : IsTotal ScaleNote noteByFreq := ⟨fun a b => le_total a.frequency b.frequency⟩

instance : IsTrans ScaleNote noteByFreq := ⟨fun _ _ _ h h' => le_trans h h'⟩

/-- `refinedMinima.sort((a, b) => a.dissonance - b.dissonance)`. -/
def minByDiss (a b : MinPoint) : Prop := a.dissonance ≤ b.dissonance

instance : IsTotal MinPoint minByDiss := ⟨fun a b => le_total a.dissonance b.dissonance⟩

instance : IsTrans MinPoint minByDiss := ⟨fun _ _ _ h h' => le_trans h h'⟩

/-- Frequency order on candidates paired with their array position (JS object
identity is modelled by the position index). -/
def byFreq (a b : ℕ × ScaleNote) : Prop := a.2.frequency ≤ b.2.frequency

instance : IsTotal (ℕ × ScaleNote) byFreq := ⟨fun a b => le_total a.2.frequency b.2.frequency⟩

instance : IsTrans (ℕ × ScaleNote) byFreq := ⟨fun _ _ _ h h' => le_trans h h'⟩

/-- Dissonance order on indexed candidates (backfill sort). -/
def byDiss (a b : ℕ × ScaleNote) : Prop := a.2.dissonance ≤ b.2.dissonance

instance : IsTotal (ℕ × ScaleNote) byDiss := ⟨fun a b => le_total a.2.dissonance b.2.dissonance⟩

instance : IsTrans (ℕ × ScaleNote) byDiss := ⟨fun _ _ _ h h' => le_trans h h'⟩

/-- The greedy forward pass: accept a candidate when fewer than `minNotes`
notes are selected so far, or when the ratio to the last accepted frequency is
at least `minRatio` (JS evaluates the ratio as `Infinity` when
`lastFreq ≤ 0`, which passes any finite bound); stop as soon as `maxNotes`
notes are selected. -/
def greedyGo (minNotes maxNotes : ℕ) (minRatio : ℝ) :
    List (ℕ × ScaleNote) → List (ℕ × ScaleNote) → ℝ → List (ℕ × ScaleNote)
  | [], sel, _ => sel
  | c :: rest, sel, lastFreq =>
    if sel.length < minNotes ∨ lastFreq ≤ 0 ∨ minRatio ≤ c.2.frequency / lastFreq then
      if maxNotes ≤ (sel ++ [c]).length then sel ++ [c]
      else greedyGo minNotes maxNotes minRatio rest (sel ++ [c]) c.2.frequency
    else greedyGo minNotes maxNotes minRatio rest sel lastFreq

/-- The backfill step: when fewer than `minNotes` notes were accepted, add the
remaining candidates (those not already selected, by array identity) in order
of ascending dissonance until the floor is reached, then re-sort by
frequency. -/
def backfill (minNotes : ℕ) (cands sel : List (ℕ × ScaleNote)) : List (ℕ × ScaleNote) :=
  if sel.length < minNotes then
    let remaining := cands.filter (fun c => ∀ s ∈ sel, s.1 ≠ c.1)
    let remSorted := remaining.insertionSort byDiss
    (sel ++ remSorted.take (minNotes - sel.length)).insertionSort byFreq
  else sel

/-- Steps 2–4 of the scale selector: sort candidates by ascending frequency,
run the greedy pass, backfill to the count floor, drop the position indices. -/
def selectNotes (minNotes maxNotes : ℕ) (minRatio : ℝ) (candidateNotes : List ScaleNote) :
    List ScaleNote :=
  let sorted := candidateNotes.insertionSort noteByFreq
  let cands := sorted.enum
  let sel := greedyGo minNotes maxNotes minRatio cands [] 0
  (backfill minNotes cands sel).map (fun c => c.2)

/-- Step 1 of the scale selector: coarse scan at increment 0.005, refine with
width 0.01 at increment 0.0005, sort the refined minima by ascending
dissonance, and convert to scale notes against the first reference frequency
as the fundamental. -/
def scaleCandidates (freq amp : List ℝ) (rangeStart rangeEnd : ℝ)
    (refFreq refAmp : List ℝ) : List ScaleNote :=
  let c := generateDissonanceCurve freq amp rangeStart rangeEnd 0.005 (some (refFreq, refAmp))
  let coarseMinima := findLocalMinima c.alphas c.dissonances
  let refinedResults := refineMinimaAndGetCurves freq amp coarseMinima 0.01 0.0005
      (some (refFreq, refAmp)) 0
  let refinedMinima := (refinedResults.map (fun r => r.minimum)).insertionSort minByDiss
  let fundamental := refFreq.getD 0 0
  refinedMinima.map (fun m => (⟨fundamental * m.alpha, m.alpha, m.dissonance⟩ : ScaleNote))

/-- `findScaleInRange` (src/buildScale.js). -/
def findScaleInRange (freq amp : List ℝ) (rangeStart rangeEnd : ℝ)
    (minNotes maxNotes : ℕ) (minRatio : ℝ) (refFreq refAmp : List ℝ) : List ScaleNote :=
  selectNotes minNotes maxNotes minRatio
    (scaleCandidates freq amp rangeStart rangeEnd refFreq refAmp)

/-- `findScale` of src/unnamed/part_004: the identical pipeline with the fixed
sweep range `0.5 – 2.0`. -/
def findScale (freq amp : List ℝ) (minNotes maxNotes : ℕ) (minRatio : ℝ)
    (refFreq refAmp : List ℝ) : List ScaleNote :=
  findScaleInRange freq amp 0.5 2.0 minNotes maxNotes minRatio refFreq refAmp


theorem length_filter_add_length_filter_not {α : Type*} (p : α → Prop) [DecidablePred p] :
    ∀ l : List α,
      (l.filter (fun a => p a)).length + (l.filter (fun a => ¬ p a)).length = l.length
  | [] => rfl
  | a :: l => by
    have ih := length_filter_add_length_filter_not p l
    by_cases h : p a <;> simp [List.filter_cons, decide_not, h] at ih ⊢ <;> omega

/-- The greedy pass only ever appends: its result is the accumulator followed
by a sublist of the remaining candidates. -/
theorem greedyGo_append (minNotes maxNotes : ℕ) (minRatio : ℝ) :
    ∀ (cands sel : List (ℕ × ScaleNote)) (lastFreq : ℝ),
      ∃ t, t.Sublist cands ∧
        greedyGo minNotes maxNotes minRatio cands sel lastFreq = sel ++ t := by
  intro cands
  induction cands with
  | nil =>
    intro sel lf
    exact ⟨[], List.nil_sublist _, by simp [greedyGo]⟩
  | cons c rest ih =>
    intro sel lf
    by_cases h1 : sel.length < minNotes ∨ lf ≤ 0 ∨ minRatio ≤ c.2.frequency / lf
    · by_cases h2 : maxNotes ≤ (sel ++ [c]).length
      · refine ⟨[c], (List.nil_sublist rest).cons₂ c, ?_⟩
        simp only [greedyGo]
        rw [if_pos h1, if_pos h2]
      · obtain ⟨t, hsub, heq⟩ := ih (sel ++ [c]) c.2.frequency
        refine ⟨c :: t, hsub.cons₂ c, ?_⟩
        simp only [greedyGo]
        rw [if_pos h1, if_neg h2, heq]
        simp
    · obtain ⟨t, hsub, heq⟩ := ih sel lf
      refine ⟨t, hsub.cons c, ?_⟩
      simp only [greedyGo]
      rw [if_neg h1, heq]

/-- The greedy pass never exceeds `maxNotes` once started below it. -/
theorem greedyGo_length_le (minNotes maxNotes : ℕ) (minRatio : ℝ) :
    ∀ (cands sel : List (ℕ × ScaleNote)) (lastFreq : ℝ), sel.length < maxNotes →
      (greedyGo minNotes maxNotes minRatio cands sel lastFreq).length ≤ maxNotes := by
  intro cands
  induction cands with
  | nil =>
    intro sel lf h
    simpa [greedyGo] using h.le
  | cons c rest ih =>
    intro sel lf h
    simp only [greedyGo]
    by_cases h1 : sel.length < minNotes ∨ lf ≤ 0 ∨ minRatio ≤ c.2.frequency / lf
    · by_cases h2 : maxNotes ≤ (sel ++ [c]).length
      · rw [if_pos h1, if_pos h2]
        simp only [List.length_append, List.length_singleton]
        omega
      · rw [if_pos h1, if_neg h2]
        refine ih _ _ ?_
        simp only [List.length_append, List.length_singleton] at h2 ⊢
        omega
    · rw [if_neg h1]
      exact ih _ _ h

/-- The greedy pass accepts everything while below the count floor, so it
cannot end below `min minNotes (available candidates)`. -/
theorem greedyGo_length_ge (minNotes maxNotes : ℕ) (minRatio : ℝ) (hmn : minNotes ≤ maxNotes) :
    ∀ (cands sel : List (ℕ × ScaleNote)) (lastFreq : ℝ),
      min minNotes (sel.length + cands.length) ≤
        (greedyGo minNotes maxNotes minRatio cands sel lastFreq).length := by
  intro cands
  induction cands with
  | nil =>
    intro sel lf
    simp only [greedyGo, List.length_nil, Nat.add_zero]
    omega
  | cons c rest ih =>
    intro sel lf
    simp only [greedyGo]
    by_cases h1 : sel.length < minNotes ∨ lf ≤ 0 ∨ minRatio ≤ c.2.frequency / lf
    · by_cases h2 : maxNotes ≤ (sel ++ [c]).length
      · rw [if_pos h1, if_pos h2]
        simp only [List.length_append, List.length_singleton, List.length_cons] at h2 ⊢
        omega
      · rw [if_pos h1, if_neg h2]
        have hrec := ih (sel ++ [c]) c.2.frequency
        simp only [List.length_append, List.length_singleton, List.length_cons] at hrec ⊢
        omega
    · rw [if_neg h1]
      push_neg at h1
      obtain ⟨t, _, heq⟩ := greedyGo_append minNotes maxNotes minRatio rest sel lf
      rw [heq]
      simp only [List.length_append, List.length_cons]
      have := h1.1
      omega

/-- The spacing constraint the greedy pass enforces between two consecutively
accepted notes once the count floor has been met: JS evaluates the ratio as
`Infinity` when the earlier frequency is not positive. -/
def spacingRel (minRatio : ℝ) (a b : ℕ × ScaleNote) : Prop :=
  0 < a.2.frequency → minRatio ≤ b.2.frequency / a.2.frequency

theorem getLast?_drop_mem {α : Type*} {l : List α} {k : ℕ} {x : α}
    (hx : x ∈ (l.drop k).getLast?) : x ∈ l.getLast? := by
  have happ : (l.take k ++ l.drop k).getLast? =
      (l.drop k).getLast?.or (l.take k).getLast? := List.getLast?_append
  rw [List.take_append_drop] at happ
  rw [Option.mem_def] at hx
  rw [happ, Option.mem_def, hx]
  rfl

/-- Invariant of the greedy pass: consecutive pairs from output position
`minNotes - 1` on satisfy the spacing constraint. -/
theorem greedyGo_chain (minNotes maxNotes : ℕ) (minRatio : ℝ) :
    ∀ (cands sel : List (ℕ × ScaleNote)) (lastFreq : ℝ),
      List.Chain' (spacingRel minRatio) (sel.drop (minNotes - 1)) →
      (∀ x ∈ sel.getLast?, lastFreq = x.2.frequency) →
      List.Chain' (spacingRel minRatio)
        ((greedyGo minNotes maxNotes minRatio cands sel lastFreq).drop (minNotes - 1)) := by
  intro cands
  induction cands with
  | nil =>
    intro sel lf hc _
    simpa [greedyGo] using hc
  | cons c rest ih =>
    intro sel lf hc hlast
    simp only [greedyGo]
    by_cases h1 : sel.length < minNotes ∨ lf ≤ 0 ∨ minRatio ≤ c.2.frequency / lf
    · have hnew : List.Chain' (spacingRel minRatio) ((sel ++ [c]).drop (minNotes - 1)) := by
        rw [List.drop_append_eq_append_drop, List.chain'_append]
        refine ⟨hc, ?_, ?_⟩
        · rcases Nat.eq_zero_or_pos (minNotes - 1 - sel.length) with hz | hp
          · rw [hz]
            simp
          · rw [List.drop_eq_nil_of_le (by simp only [List.length_singleton]; omega)]
            simp
        · intro x hx y hy
          rcases Nat.eq_zero_or_pos (minNotes - 1 - sel.length) with hz | hp
          · rw [hz] at hy
            simp only [List.drop_zero, List.head?_cons, Option.mem_some_iff] at hy
            subst hy
            have hxl : x ∈ sel.getLast? := getLast?_drop_mem hx
            have hlf : lf = x.2.frequency := hlast x hxl
            intro hxpos
            have hne : sel.drop (minNotes - 1) ≠ [] := by
              intro hemp
              rw [hemp] at hx
              simp at hx
            have hlen : minNotes - 1 < sel.length := by
              by_contra hcon
              push_neg at hcon
              exact hne (List.drop_eq_nil_of_le hcon)
            rcases h1 with ha | hb | hr
            · omega
            · rw [hlf] at hb
              linarith
            · rw [hlf] at hr
              exact hr
          · rw [List.drop_eq_nil_of_le (by simp only [List.length_singleton]; omega)] at hy
            simp at hy
      by_cases h2 : maxNotes ≤ (sel ++ [c]).length
      · rw [if_pos h1, if_pos h2]
        exact hnew
      · rw [if_pos h1, if_neg h2]
        refine ih (sel ++ [c]) c.2.frequency hnew ?_
        intro x hx
        rw [List.getLast?_concat, Option.mem_some_iff] at hx
        subst hx
        rfl
    · rw [if_neg h1]
      exact ih sel lf hc hlast

/-- Length window of the backfill stage. -/
theorem backfill_length (minNotes : ℕ) (cands sel : List (ℕ × ScaleNote))
    (hsub : sel.Sublist cands) (hnodup : (cands.map Prod.fst).Nodup) :
    min minNotes cands.length ≤ (backfill minNotes cands sel).length ∧
    (backfill minNotes cands sel).length ≤ max sel.length minNotes := by
  unfold backfill
  by_cases h : sel.length < minNotes
  · rw [if_pos h]
    have hsplit := length_filter_add_length_filter_not
      (fun c => ∀ s ∈ sel, s.1 ≠ c.1) cands
    have hdropped : (cands.filter (fun c => ¬ ∀ s ∈ sel, s.1 ≠ c.1)).length ≤ sel.length := by
      set dropped := cands.filter (fun c => ¬ ∀ s ∈ sel, s.1 ≠ c.1) with hdr
      have hdsub : (dropped.map Prod.fst) ⊆ (sel.map Prod.fst) := by
        intro x hx
        rcases List.mem_map.1 hx with ⟨d, hd, rfl⟩
        have hmem := List.mem_filter.1 hd
        have hprop := of_decide_eq_true hmem.2
        push_neg at hprop
        rcases hprop with ⟨s, hs, hseq⟩
        exact List.mem_map.2 ⟨s, hs, hseq⟩
      have hdnodup : (dropped.map Prod.fst).Nodup :=
        ((List.filter_sublist cands).map Prod.fst).nodup hnodup
      calc dropped.length = (dropped.map Prod.fst).length := (List.length_map _ _).symm
        _ = (dropped.map Prod.fst).toFinset.card := (List.toFinset_card_of_nodup hdnodup).symm
        _ ≤ (sel.map Prod.fst).toFinset.card :=
            Finset.card_le_card (fun x hx => List.mem_toFinset.2 (hdsub (List.mem_toFinset.1 hx)))
        _ ≤ (sel.map Prod.fst).length := (sel.map Prod.fst).toFinset_card_le
        _ = sel.length := List.length_map _ _
    have hlen : ((sel ++ ((cands.filter (fun c => ∀ s ∈ sel, s.1 ≠ c.1)).insertionSort
        byDiss).take (minNotes - sel.length)).insertionSort byFreq).length =
        sel.length + min (minNotes - sel.length)
          (cands.filter (fun c => ∀ s ∈ sel, s.1 ≠ c.1)).length := by
      rw [(List.perm_insertionSort byFreq _).length_eq]
      rw [List.length_append, List.length_take,
        (List.perm_insertionSort byDiss _).length_eq]
    constructor
    · rw [hlen]
      omega
    · rw [hlen]
      omega
  · rw [if_neg h]
    have := hsub.length_le
    omega

/-- Sortedness of the backfill stage output (given a frequency-sorted greedy
output). -/
theorem backfill_sorted (minNotes : ℕ) (cands sel : List (ℕ × ScaleNote))
    (hsel : List.Pairwise byFreq sel) :
    List.Pairwise byFreq (backfill minNotes cands sel) := by
  unfold backfill
  by_cases h : sel.length < minNotes
  · rw [if_pos h]
    exact List.sorted_insertionSort byFreq _
  · rw [if_neg h]
    exact hsel

/-- C1 (amended): for `minNotes ≤ maxNotes` and `1 ≤ maxNotes`, the scale
returned by `findScaleInRange` is non-decreasing in frequency (it is strictly
ascending only when the refined candidate frequencies are pairwise distinct),
its length lies in `[min(minNotes, number of candidates), maxNotes]`, and
each pair of notes accepted consecutively by the greedy pass after the count
floor was met satisfies the `minRatio` spacing (with the JS `Infinity`
convention for a non-positive predecessor frequency). -/
theorem findScaleInRange_spec (freq amp : List ℝ) (rangeStart rangeEnd : ℝ)
    (minNotes maxNotes : ℕ) (minRatio : ℝ) (refFreq refAmp : List ℝ)
    (hmn : minNotes ≤ maxNotes) (hmax : 1 ≤ maxNotes) :
    List.Pairwise (fun a b : ScaleNote => a.frequency ≤ b.frequency)
      (findScaleInRange freq amp rangeStart rangeEnd minNotes maxNotes minRatio refFreq refAmp) ∧
    min minNotes (scaleCandidates freq amp rangeStart rangeEnd refFreq refAmp).length ≤
      (findScaleInRange freq amp rangeStart rangeEnd minNotes maxNotes minRatio
        refFreq refAmp).length ∧
    (findScaleInRange freq amp rangeStart rangeEnd minNotes maxNotes minRatio
      refFreq refAmp).length ≤ maxNotes ∧
    List.Chain' (spacingRel minRatio)
      ((greedyGo minNotes maxNotes minRatio
        (((scaleCandidates freq amp rangeStart rangeEnd refFreq refAmp).insertionSort
          noteByFreq).enum) [] 0).drop (minNotes - 1)) := by
  set candidates := scaleCandidates freq amp rangeStart rangeEnd refFreq refAmp with hcand
  set sorted := candidates.insertionSort noteByFreq with hsorted
  set cands := sorted.enum with hcands
  set sel := greedyGo minNotes maxNotes minRatio cands [] 0 with hsel
  have hout : findScaleInRange freq amp rangeStart rangeEnd minNotes maxNotes minRatio
      refFreq refAmp = (backfill minNotes cands sel).map (fun c => c.2) := rfl
  have hcandsorted : List.Pairwise byFreq cands := by
    have hps : List.Pairwise noteByFreq sorted := List.sorted_insertionSort noteByFreq _
    have := (List.pairwise_map (f := Prod.snd) (l := cands)
      (R := noteByFreq)).1
    rw [hcands, List.enum_map_snd] at this
    exact this hps
  have hsub : sel.Sublist cands := by
    obtain ⟨t, hsubt, heq⟩ := greedyGo_append minNotes maxNotes minRatio cands [] 0
    rw [hsel, heq]
    simpa using hsubt
  have hselsorted : List.Pairwise byFreq sel := List.Pairwise.sublist hsub hcandsorted
  have hnodup : (cands.map Prod.fst).Nodup := by
    rw [hcands, List.enum_map_fst]
    exact List.nodup_range _
  have hbf := backfill_length minNotes cands sel hsub hnodup
  have hcandlen : cands.length = candidates.length := by
    rw [hcands, List.enum_length, hsorted, (List.perm_insertionSort noteByFreq _).length_eq]
  have hselle : sel.length ≤ maxNotes := by
    rw [hsel]
    exact greedyGo_length_le minNotes maxNotes minRatio cands [] 0 (by simpa using hmax)
  refine ⟨?_, ?_, ?_, ?_⟩
  · rw [hout]
    have hbfs := backfill_sorted minNotes cands sel hselsorted
    exact (List.pairwise_map).2 hbfs
  · rw [hout, List.length_map]
    rw [hcandlen] at hbf
    exact hbf.1
  · rw [hout, List.length_map]
    have := hbf.2
    omega
  · have := greedyGo_chain minNotes maxNotes minRatio cands [] 0 (by simp) (by simp)
    exact this

/-- Witness for the amended C1 theorem at
`freq = amp = refFreq = refAmp = [1]`, range `[1, 1.01]`, `minNotes = 0`,
`maxNotes = 1`, `minRatio = 2`. -/
theorem findScaleInRange_spec_witness :
    (0:ℕ) ≤ 1 ∧ (1:ℕ) ≤ 1 ∧
    (findScaleInRange [1] [1] 1 1.01 0 1 2 [1] [1]).length ≤ 1 :=
  ⟨Nat.zero_le _, le_refl 1,
    (findScaleInRange_spec [1] [1] 1 1.01 0 1 2 [1] [1] (Nat.zero_le _) (le_refl 1)).2.2.1⟩


theorem getD_map {α β : Type*} (f : α → β) (l : List α) (i : ℕ) (d : α) (db : β)
    (h : i < l.length) : (l.map f).getD i db = f (l.getD i d) := by
  rw [List.getD_eq_getElem _ _ (by simpa using h), List.getD_eq_getElem _ _ h]
  simp

/-- A nonempty running-minimum scan always ends at some curve point. -/
theorem refineFold_snd_isSome (l : List MinPoint) (hl : l ≠ []) (st0 : ℝ) :
    ∃ pt ∈ l, (l.foldl refineFold (st0, none)).1 = pt.alpha ∧
      (l.foldl refineFold (st0, none)).2 = some pt.dissonance := by
  rcases refineFold_result l (st0, none) with h | h
  · exfalso
    rcases List.exists_cons_of_ne_nil hl with ⟨q, t, rfl⟩
    rw [List.foldl_cons] at h
    have hsnd := congrArg Prod.snd h
    rcases refineFold_result t (refineFold (st0, none) q) with h' | ⟨q', _, _, h2'⟩
    · rw [h'] at hsnd
      simp [refineFold] at hsnd
    · rw [h2'] at hsnd
      simp at hsnd
  · exact h

/-- When the window's leftmost sample lies strictly above `-1`, the JS
sentinel check cannot fire and `refineOne` returns a result. -/
theorem refineOne_isSome (freq amp : List ℝ) (ref : Option (List ℝ × List ℝ))
    (w inc offset : ℝ) (cm : MinPoint) (hinc : 0 < inc) (hw : 0 ≤ w)
    (halpha : -1 < cm.alpha - w + offset) :
    (refineOne freq amp ref w inc offset cm).isSome := by
  have hle : cm.alpha - w + offset ≤ cm.alpha + w + offset := by linarith
  set curve := (alphaSeq (cm.alpha + w + offset) inc (cm.alpha - w + offset)).map
      (fun a => (⟨a, curvePointValue freq amp ref a⟩ : MinPoint)) with hcurvedef
  have hnonempty : curve ≠ [] := by
    rw [hcurvedef, alphaSeq_eq_map _ _ hinc, if_pos hle]
    simp
  obtain ⟨pt, hpt, h1, h2⟩ := refineFold_snd_isSome curve hnonempty (-1)
  have hge : cm.alpha - w + offset ≤ pt.alpha := by
    rw [hcurvedef] at hpt
    rcases List.mem_map.1 hpt with ⟨a, ha, rfl⟩
    rw [alphaSeq_eq_map _ _ hinc, if_pos hle] at ha
    rcases List.mem_map.1 ha with ⟨i, _, rfl⟩
    have : (0:ℝ) ≤ (i:ℝ) * inc := by positivity
    simp only
    linarith
  have hcond : (curve.foldl refineFold (-1, none)).1 ≠ -1 := by
    rw [h1]
    intro hfalse
    rw [hfalse] at hge
    linarith
  rw [refineOne_eq, ← hcurvedef, if_pos hcond]
  rfl

/-- With `minNotes = maxNotes = 0` the greedy pass still accepts the first
candidate (the initial `lastFreq = 0` makes the JS ratio `Infinity`) before
checking the cap, so a nonempty candidate pool yields exactly one note. -/
theorem selectNotes_zero_len (minRatio : ℝ) (candidates : List ScaleNote)
    (hne : candidates ≠ []) :
    (selectNotes 0 0 minRatio candidates).length = 1 := by
  have hs : candidates.insertionSort noteByFreq ≠ [] := by
    intro h
    have hperm := List.perm_insertionSort noteByFreq candidates
    rw [h] at hperm
    exact hne hperm.symm.eq_nil
  rcases hsort : candidates.insertionSort noteByFreq with _ | ⟨a, l⟩
  · exact absurd hsort hs
  · simp only [selectNotes, hsort, List.enum_cons]
    simp only [greedyGo]
    rw [if_pos (Or.inr (Or.inl (le_refl (0:ℝ))))]
    rw [if_pos (by simp)]
    unfold backfill
    rw [if_neg (by simp)]
    simp

/-- C1 counterexample: with `minNotes = maxNotes = 0` (satisfying
`minNotes ≤ maxNotes`) and a non-degenerate sweep (freq = amp = refFreq =
refAmp = [1], range 1 – 1.01, which produces a refined candidate at the
unison), `findScaleInRange` returns one note, violating the claimed
`length ≤ maxNotes` bound. -/
theorem findScaleInRange_claim_counterexample : ¬ (∀ (freq amp : List ℝ)
    (rangeStart rangeEnd : ℝ) (minNotes maxNotes : ℕ) (minRatio : ℝ)
    (refFreq refAmp : List ℝ), minNotes ≤ maxNotes → freq ≠ [] → refFreq ≠ [] →
    (List.Pairwise (fun a b : ScaleNote => a.frequency < b.frequency)
      (findScaleInRange freq amp rangeStart rangeEnd minNotes maxNotes minRatio
        refFreq refAmp) ∧
    List.Chain' (fun a b : ℕ × ScaleNote => minRatio ≤ b.2.frequency / a.2.frequency)
      (greedyGo minNotes maxNotes minRatio
        (((scaleCandidates freq amp rangeStart rangeEnd refFreq refAmp).insertionSort
          noteByFreq).enum) [] 0) ∧
    min minNotes (scaleCandidates freq amp rangeStart rangeEnd refFreq refAmp).length ≤
      (findScaleInRange freq amp rangeStart rangeEnd minNotes maxNotes minRatio
        refFreq refAmp).length ∧
    (findScaleInRange freq amp rangeStart rangeEnd minNotes maxNotes minRatio
      refFreq refAmp).length ≤ maxNotes)) := by
  intro H
  have hclaim := (H [1] [1] 1 1.01 0 0 2 [1] [1] (le_refl 0) (by simp) (by simp)).2.2.2
  -- Notation for the concrete pipeline pieces.
  have hspec := generateDissonanceCurve_spec [1] [1] 1 1.01 0.005 (some ([1], [1]))
    (by norm_num) (by norm_num)
  simp only [generateDissonanceCurve] at hspec
  have hfl : Nat.floor (((1.01:ℝ) - 1) / 0.005) = 2 := by norm_num
  have hlenA : (alphaSeq 1.01 0.005 1).length = 3 := by
    rw [hspec.1, hfl]
  have hA0 : (alphaSeq 1.01 0.005 1).getD 0 0 = 1 := by
    have := hspec.2.1 0 (by omega)
    rw [this]
    norm_num
  have hA1 : (alphaSeq 1.01 0.005 1).getD 1 0 = 1.005 := by
    have := hspec.2.1 1 (by omega)
    rw [this]
    norm_num
  set cpv := curvePointValue [1] [1] (some ([1], [1])) with hcpv
  set A := alphaSeq 1.01 0.005 1 with hA
  set D := A.map cpv with hD
  have hlenD : D.length = 3 := by
    rw [hD, List.length_map, hlenA]
  have hD0 : D.getD 0 0 = cpv 1 := by
    rw [hD, getD_map cpv A 0 0 0 (by omega), hA0]
  have hD1 : D.getD 1 0 = cpv 1.005 := by
    rw [hD, getD_map cpv A 1 0 0 (by omega), hA1]
  have hstart : D.getD 0 0 < D.getD 1 0 := by
    rw [hD0, hD1, hcpv, cpv_pair_zero]
    exact cpv_pair_pos 1.005 (by norm_num) (by norm_num)
  have hflm : ∃ t, findLocalMinima A D = (⟨1, cpv 1⟩ : MinPoint) :: t := by
    unfold findLocalMinima
    rw [if_neg (show ¬ D.length < 2 by omega), if_pos hstart, hA0, hD0,
      List.singleton_append, List.cons_append]
    exact ⟨_, rfl⟩
  obtain ⟨t, hflmeq⟩ := hflm
  have hrsome : (refineOne [1] [1] (some ([1], [1])) 0.01 0.0005 0
      (⟨1, cpv 1⟩ : MinPoint)).isSome :=
    refineOne_isSome [1] [1] (some ([1], [1])) 0.01 0.0005 0 _ (by norm_num) (by norm_num)
      (by norm_num)
  obtain ⟨r0, hr0⟩ := Option.isSome_iff_exists.1 hrsome
  have hcandlen : 1 ≤ (scaleCandidates [1] [1] 1 1.01 [1] [1]).length := by
    simp only [scaleCandidates, refineMinimaAndGetCurves, generateDissonanceCurve]
    rw [List.length_map, List.length_insertionSort, List.length_map]
    have : findLocalMinima A (A.map cpv) = (⟨1, cpv 1⟩ : MinPoint) :: t := by
      rw [← hD]
      exact hflmeq
    rw [this, List.filterMap_cons, hr0]
    simp
  have hne : scaleCandidates [1] [1] 1 1.01 [1] [1] ≠ [] := by
    intro h
    rw [h] at hcandlen
    simp at hcandlen
  have hlen1 : (findScaleInRange [1] [1] 1 1.01 0 0 2 [1] [1]).length = 1 :=
    selectNotes_zero_len 2 (scaleCandidates [1] [1] 1 1.01 [1] [1]) hne
  rw [hlen1] at hclaim
  exact absurd hclaim (by norm_num)


/-! ## Overtone generation (src/overtoneGen.js, `generateOvertones`) -/

/-- One generated partial `{ratio, amplitude, harmonic}`. -/
structure Overtone where
  ratio : ℝ
  amplitude : ℝ
  harmonic : ℕ

instance : Inhabited Overtone := ⟨⟨0, 0, 0⟩⟩

/-- The eight fixed formant centers. -/
def formantCenters : List ℝ := [1.0, 2.4, 3.8, 5.2, 7.1, 9.3, 12.1, 15.4]

/-- The body of the harmonic loop of `generateOvertones` for harmonic `n`
(pre-normalization): stretch, deterministic perturbation, spectral-balance
rolloff, odd/even bias, formant boost, richness multiplier, floor at 0.001. -/
def rawOvertone (harmonicPurity spectralBalance oddEvenBias formantStrength
    spectralRichness irregularity : ℝ) (n : ℕ) : Overtone :=
  let stretchFactor := 1 + (1 - harmonicPurity) * 0.1 * ((n : ℝ) - 1) ^ (1.3 : ℝ)
  let ratio0 := (n : ℝ) * stretchFactor
  let ratio := if 0 < irregularity then
      ratio0 * (1 + Real.sin ((n : ℝ) * 2.847) * Real.sin ((n : ℝ) * 1.618) * irregularity * 0.05)
    else ratio0
  let amplitude0 := if spectralBalance < 0.5 then
      (1 / (n : ℝ)) ^ (1 - spectralBalance * 2 : ℝ)
    else (1 / (n : ℝ)) ^ (0.5 + (spectralBalance - 0.5) * 1.0 : ℝ)
  let oddEvenMultiplier : ℝ := if n % 2 = 1 then 0.5 + oddEvenBias * 0.5
    else 1.5 - oddEvenBias * 0.5
  let amplitude1 := amplitude0 * oddEvenMultiplier
  let amplitude2 := if 0 < formantStrength then
      amplitude1 * (formantCenters.foldl (fun boost formantCenter =>
        let distance := |ratio - formantCenter|
        if distance < 0.8 then
          boost + formantStrength * Real.exp (-(distance / (0.8 * 0.4)) ^ 2) * 2.0
        else boost) 1.0)
    else amplitude1
  let richnessMultiplier := 1 + spectralRichness * (0.5 - (1 / (n : ℝ)) ^ (0.3 : ℝ))
  let amplitude3 := amplitude2 * richnessMultiplier
  ⟨ratio, max 0.001 amplitude3, n⟩

/-- The amplitude floor `Math.max(0.001, amplitude)` keeps every raw
amplitude strictly positive. -/
theorem rawOvertone_amplitude_pos (hp sb oeb fs sr irr : ℝ) (n : ℕ) :
    0 < (rawOvertone hp sb oeb fs sr irr n).amplitude := by
  unfold rawOvertone
  simp only
  exact lt_of_lt_of_le (by norm_num) (le_max_left _ _)

/-- `generateOvertones` (src/overtoneGen.js lines 18–110): validate the six
shape parameters (throwing on any outside `[0,1]`), generate harmonics
`1..N`, and normalize every amplitude by the first partial's amplitude.
(For `N = 0` JS crashes reading `overtones[0]`; the embedding's `headD`
default is junk there and the claims only concern `N ≥ 1`.) -/
def generateOvertones (harmonicPurity spectralBalance oddEvenBias formantStrength
    spectralRichness irregularity : ℝ) (maxHarmonics : ℕ) :
    Except String (List Overtone) :=
  if ∃ p ∈ [harmonicPurity, spectralBalance, oddEvenBias, formantStrength,
      spectralRichness, irregularity], p < 0 ∨ 1 < p then
    .error "All parameters must be in range [0, 1]"
  else
    let overtones := (List.range maxHarmonics).map (fun k =>
      rawOvertone harmonicPurity spectralBalance oddEvenBias formantStrength
        spectralRichness irregularity (k + 1))
    let fundamentalAmp := (overtones.headD default).amplitude
    .ok (overtones.map (fun o => ⟨o.ratio, o.amplitude / fundamentalAmp, o.harmonic⟩))

/-- C2: for parameters in `[0,1]` and `N ≥ 1`, the generator succeeds with
exactly `N` partials carrying harmonic indices `1..N` in order, and the first
partial's normalized amplitude is exactly 1. -/
theorem generateOvertones_spec (hp sb oeb fs sr irr : ℝ) (n : ℕ)
    (hhp : 0 ≤ hp ∧ hp ≤ 1) (hsb : 0 ≤ sb ∧ sb ≤ 1) (hoeb : 0 ≤ oeb ∧ oeb ≤ 1)
    (hfs : 0 ≤ fs ∧ fs ≤ 1) (hsr : 0 ≤ sr ∧ sr ≤ 1) (hirr : 0 ≤ irr ∧ irr ≤ 1)
    (hn : 1 ≤ n) :
    ∃ l, generateOvertones hp sb oeb fs sr irr n = .ok l ∧
      l.length = n ∧ (∀ i, i < n → (l.getD i default).harmonic = i + 1) ∧
      (l.headD default).amplitude = 1 := by
  have hval : ¬ ∃ p ∈ [hp, sb, oeb, fs, sr, irr], p < 0 ∨ 1 < p := by
    rintro ⟨p, hpmem, hpbad⟩
    fin_cases hpmem <;> rcases hpbad with h | h <;>
      first
      | linarith [hhp.1, hhp.2]
      | linarith [hsb.1, hsb.2]
      | linarith [hoeb.1, hoeb.2]
      | linarith [hfs.1, hfs.2]
      | linarith [hsr.1, hsr.2]
      | linarith [hirr.1, hirr.2]
  unfold generateOvertones
  rw [if_neg hval]
  simp only
  refine ⟨_, rfl, ?_, ?_, ?_⟩
  · simp
  · intro i hi
    rw [getD_map _ _ _ default _ (by simpa using hi),
      getD_map _ _ _ 0 _ (by simpa using hi),
      List.getD_eq_getElem _ _ (by simpa using hi), List.getElem_range]
    simp [rawOvertone]
  · obtain ⟨m, hm⟩ := Nat.exists_eq_add_of_le hn
    have hn' : n = m + 1 := by omega
    subst hn'
    rw [List.range_succ_eq_map]
    simp only [List.map_cons, List.headD_cons]
    exact div_self (ne_of_gt (rawOvertone_amplitude_pos hp sb oeb fs sr irr (0 + 1)))

/-- Witness for C2 at `hp = sb = oeb = sr = 0.5`, `fs = irr = 0`, `N = 2`. -/
theorem generateOvertones_spec_witness :
    ∃ l, generateOvertones 0.5 0.5 0.5 0 0.5 0 2 = .ok l ∧
      l.length = 2 ∧ (∀ i, i < 2 → (l.getD i default).harmonic = i + 1) ∧
      (l.headD default).amplitude = 1 :=
  generateOvertones_spec 0.5 0.5 0.5 0 0.5 0 2 ⟨by norm_num, by norm_num⟩
    ⟨by norm_num, by norm_num⟩ ⟨by norm_num, by norm_num⟩ ⟨by norm_num, by norm_num⟩
    ⟨by norm_num, by norm_num⟩ ⟨by norm_num, by norm_num⟩ (by norm_num)

/-! ## Cross-scale optimization (src/unnamed/part_004, `optimizeScalesCombined`,
lines 224–305) -/

/-- An overtone series `{freq, amp}` as passed to the optimizer. -/
structure OvSeries where
  freq : List ℝ
  amp : List ℝ

/-- A candidate note annotated with its source scale index and source
overtone series (an `allNotes` entry). -/
structure AllNote where
  note : ScaleNote
  scaleIndex : ℕ
  sourceOvertones : OvSeries

instance : Inhabited AllNote := ⟨⟨default, 0, ⟨[], []⟩⟩⟩

/-- A note with its combined cross-scale dissonance score. -/
structure ScoredNote where
  note : ScaleNote
  scaleIndex : ℕ
  combinedDissonance : ℝ

instance : Inhabited ScoredNote := ⟨⟨default, 0, 0⟩⟩

/-- A returned note after the bookkeeping fields are stripped. -/
structure CleanNote where
  frequency : ℝ
  ratio : ℝ
  dissonance : ℝ
  combinedDissonance : ℝ

/-- Collect every note of every scale with its source information. -/
def collectAllNotes (scales : List (List ScaleNote)) (overtoneSeries : List OvSeries) :
    List AllNote :=
  (scales.enum.map (fun p =>
    p.2.map (fun note => (⟨note, p.1, overtoneSeries.getD p.1 ⟨[], []⟩⟩ : AllNote)))).join

/-- The dissonance of `note`'s full partial set combined with `other`
treated as a single partial of amplitude 1. -/
def pairNoteDissonance (note other : AllNote) : ℝ :=
  dissmeasure (note.sourceOvertones.freq ++ [other.note.frequency])
    (note.sourceOvertones.amp ++ [1.0])

/-- The accumulation loop over all other notes: running total and comparison
count, skipping only the note itself (`noteIndex === otherIndex`). -/
def combinedScore (allNotes : List AllNote) (i : ℕ) (note : AllNote) : ℝ :=
  let acc := allNotes.enum.foldl (fun (st : ℝ × ℕ) p =>
    if p.1 = i then st
    else (st.1 + pairNoteDissonance note p.2, st.2 + 1)) (0, 0)
  if 0 < acc.2 then acc.1 / (acc.2 : ℝ) else note.note.dissonance

/-- `notesWithCombinedScores`: every candidate annotated with its combined
score. -/
def notesWithCombinedScores (allNotes : List AllNote) : List ScoredNote :=
  allNotes.enum.map (fun q =>
    ⟨q.2.note, q.2.scaleIndex, combinedScore allNotes q.1 q.2⟩)

/-- Sort relation by ascending combined dissonance. -/
def scoredByCombined (a b : ScoredNote) : Prop :=
  a.combinedDissonance ≤ b.combinedDissonance

instance : IsTotal ScoredNote scoredByCombined :=
  ⟨fun a b => le_total a.combinedDissonance b.combinedDissonance⟩

instance : IsTrans ScoredNote scoredByCombined := ⟨fun _ _ _ h h' => le_trans h h'⟩

/-- Sort relation by ascending frequency on cleaned notes. -/
def cleanByFreq (a b : CleanNote) : Prop := a.frequency ≤ b.frequency

instance : IsTotal CleanNote cleanByFreq := ⟨fun a b => le_total a.frequency b.frequency⟩

instance : IsTrans CleanNote cleanByFreq := ⟨fun _ _ _ h h' => le_trans h h'⟩

/-- `optimizeScalesCombined(scales, overtoneSeries, targetNotes)`: validate,
score every candidate against all other candidates, regroup by source scale,
keep the `targetNotes` best by combined dissonance, re-sort by frequency. -/
def optimizeScalesCombined (scales : List (List ScaleNote)) (overtoneSeries : List OvSeries)
    (targetNotes : ℕ) : Except String (List (List CleanNote)) :=
  if scales.length = 0 then .error "scales must be a non-empty array"
  else if overtoneSeries.length ≠ scales.length then
    .error "overtoneSeries must be an array with the same length as scales"
  else
    let allNotes := collectAllNotes scales overtoneSeries
    let scored := notesWithCombinedScores allNotes
    .ok ((List.range scales.length).map (fun k =>
      let scaleNotes := scored.filter (fun s => s.scaleIndex = k)
      let sorted := scaleNotes.insertionSort scoredByCombined
      let selected := sorted.take (min targetNotes sorted.length)
      (selected.map (fun s => (⟨s.note.frequency, s.note.ratio, s.note.dissonance,
        s.combinedDissonance⟩ : CleanNote))).insertionSort cleanByFreq))

/-- Modelled from the spec's words (C3), for comparison with the code: the
average over candidate notes of every *other voice* only. -/
def specCombinedDissonance (allNotes : List AllNote) (note : AllNote) : ℝ :=
  let others := allNotes.filter (fun o => o.scaleIndex ≠ note.scaleIndex)
  (others.map (fun o => pairNoteDissonance note o)).sum / (others.length : ℝ)

theorem combinedScore_foldl (note : AllNote) (i : ℕ) :
    ∀ (l : List (ℕ × AllNote)) (st : ℝ × ℕ),
      (l.foldl (fun (st : ℝ × ℕ) p => if p.1 = i then st
        else (st.1 + pairNoteDissonance note p.2, st.2 + 1)) st) =
      (st.1 + ((l.filter (fun p => p.1 ≠ i)).map
        (fun p => pairNoteDissonance note p.2)).sum,
       st.2 + (l.filter (fun p => p.1 ≠ i)).length) := by
  intro l
  induction l with
  | nil =>
    intro st
    simp
  | cons p t ih =>
    intro st
    rw [List.foldl_cons]
    by_cases hp : p.1 = i
    · rw [if_pos hp, ih st]
      simp [List.filter_cons, hp]
    · rw [if_neg hp, ih _]
      have hfil : (p :: t).filter (fun q => q.1 ≠ i) = p :: t.filter (fun q => q.1 ≠ i) := by
        simp [List.filter_cons, hp]
      rw [hfil]
      simp only [List.map_cons, List.sum_cons, List.length_cons, Prod.mk.injEq]
      constructor
      · ring
      · omega

theorem length_filter_ne_enum {α : Type*} (l : List α) (i : ℕ) (hi : i < l.length) :
    (l.enum.filter (fun p => p.1 ≠ i)).length = l.length - 1 := by
  have hmapeq : (List.range l.length).filter (fun j => j ≠ i) =
      (l.enum.filter ((fun j => decide (j ≠ i)) ∘ Prod.fst)).map Prod.fst := by
    rw [← List.filter_map, List.enum_map_fst]
  have hcount : ((List.range l.length).filter (fun j => j = i)).length = 1 := by
    rw [List.filter_eq]
    simp [List.count_eq_one_of_mem (List.nodup_range l.length) (List.mem_range.2 hi)]
  have hsplit := length_filter_add_length_filter_not (fun j => j = i) (List.range l.length)
  have hne : ((List.range l.length).filter (fun j => j ≠ i)).length = l.length - 1 := by
    have : ((List.range l.length).filter (fun j => ¬ j = i)).length = l.length - 1 := by
      rw [List.length_range] at hsplit
      omega
    simpa using this
  rw [← hne, hmapeq, List.length_map]
  rfl

/-- C3 (amended): each candidate's combined dissonance equals the average of
its pair dissonance against ALL other candidates of all voices, excluding
only the note itself (not the notes of its own voice). -/
theorem notesWithCombinedScores_spec (allNotes : List AllNote) (i : ℕ)
    (hi : i < allNotes.length) (h2 : 2 ≤ allNotes.length) :
    ((notesWithCombinedScores allNotes).getD i default).combinedDissonance =
      ((allNotes.enum.filter (fun p => p.1 ≠ i)).map
        (fun p => pairNoteDissonance (allNotes.getD i default) p.2)).sum /
      ((allNotes.length - 1 : ℕ) : ℝ) := by
  unfold notesWithCombinedScores
  rw [getD_map _ _ _ (0, default) _ (by simpa using hi)]
  simp only
  rw [List.getD_eq_getElem _ _ (by simpa using hi), List.getElem_enum]
  unfold combinedScore
  rw [combinedScore_foldl]
  simp only [Nat.zero_add, zero_add]
  rw [length_filter_ne_enum allNotes i hi]
  rw [if_pos (by omega)]
  rw [List.getD_eq_getElem _ _ hi]

/-- Witness for the amended C3 theorem on a concrete two-note pool. -/
theorem notesWithCombinedScores_spec_witness :
    (0 < ([⟨⟨1, 1, 0⟩, 0, ⟨[1], [1]⟩⟩, ⟨⟨2, 2, 0⟩, 1, ⟨[1], [1]⟩⟩] : List AllNote).length) ∧
    ((notesWithCombinedScores
        [⟨⟨1, 1, 0⟩, 0, ⟨[1], [1]⟩⟩, ⟨⟨2, 2, 0⟩, 1, ⟨[1], [1]⟩⟩]).getD 0
        default).combinedDissonance =
      ((([⟨⟨1, 1, 0⟩, 0, ⟨[1], [1]⟩⟩, ⟨⟨2, 2, 0⟩, 1, ⟨[1], [1]⟩⟩] : List AllNote).enum.filter
        (fun p => p.1 ≠ 0)).map
        (fun p => pairNoteDissonance
          (([⟨⟨1, 1, 0⟩, 0, ⟨[1], [1]⟩⟩, ⟨⟨2, 2, 0⟩, 1, ⟨[1], [1]⟩⟩] : List AllNote).getD 0
            default) p.2)).sum /
      (((([⟨⟨1, 1, 0⟩, 0, ⟨[1], [1]⟩⟩, ⟨⟨2, 2, 0⟩, 1, ⟨[1], [1]⟩⟩] : List AllNote).length
        - 1 : ℕ)) : ℝ) :=
  ⟨by simp, notesWithCombinedScores_spec _ 0 (by simp) (by simp)⟩


/-- Two-partial dissonance against a unit-amplitude pair, in closed form. -/
theorem dissmeasure_unit_pair (x : ℝ) : dissmeasure [1, x] [1, 1] =
    if (1:ℝ) ≤ x then pairTerm (1, 1) (x, 1) else pairTerm (x, 1) (1, 1) := by
  unfold dissmeasure
  simp only [List.zip_cons_cons, List.zip_nil_left, List.insertionSort, List.orderedInsert]
  by_cases h : (1:ℝ) ≤ x
  · rw [if_pos (show leFreq (1, 1) (x, 1) from h), if_pos h]
    simp only [pairSum, List.map_cons, List.map_nil, List.sum_cons, List.sum_nil]
    ring
  · rw [if_neg (show ¬ leFreq (1, 1) (x, 1) from h), if_neg h]
    simp only [pairSum, List.map_cons, List.map_nil, List.sum_cons, List.sum_nil]
    ring

theorem dissmeasure_one_one : dissmeasure [1, 1] [(1:ℝ), 1] = 0 := by
  rw [dissmeasure_unit_pair, if_pos le_rfl]
  exact pairTerm_self 1 1 1

theorem dissmeasure_one_two_pos : 0 < dissmeasure [1, 2] [(1:ℝ), 1] := by
  rw [dissmeasure_unit_pair, if_pos (by norm_num)]
  exact pairTerm_pos 1 1 2 1 (by norm_num) one_pos one_pos (by norm_num)

/-- C3 counterexample: the code averages over ALL other candidates, not only
those of other voices.  With voice 0 holding notes at frequencies 1 and 2 and
voice 1 holding one note at frequency 1 (all overtone series `([1],[1])`),
the spec's other-voice average for the first note is exactly 0 while the code
computes `(dissmeasure [1,2] + 0) / 2 > 0`. -/
theorem optimizeScalesCombined_claim_counterexample :
    ¬ (∀ (scales : List (List ScaleNote)) (overtoneSeries : List OvSeries),
      overtoneSeries.length = scales.length → scales ≠ [] →
      ∀ i, i < (collectAllNotes scales overtoneSeries).length →
      ((notesWithCombinedScores (collectAllNotes scales overtoneSeries)).getD i
          default).combinedDissonance =
        specCombinedDissonance (collectAllNotes scales overtoneSeries)
          ((collectAllNotes scales overtoneSeries).getD i default)) := by
  intro H
  have hcollect : collectAllNotes [[⟨1, 1, 0⟩, ⟨2, 2, 0⟩], [⟨1, 1, 0⟩]] [⟨[1], [1]⟩, ⟨[1], [1]⟩] =
      [⟨⟨1, 1, 0⟩, 0, ⟨[1], [1]⟩⟩, ⟨⟨2, 2, 0⟩, 0, ⟨[1], [1]⟩⟩, ⟨⟨1, 1, 0⟩, 1, ⟨[1], [1]⟩⟩] := by
    simp [collectAllNotes, List.enum, List.enumFrom]
  have hlen : (collectAllNotes [[⟨1, 1, 0⟩, ⟨2, 2, 0⟩], [⟨1, 1, 0⟩]]
      [⟨[1], [1]⟩, ⟨[1], [1]⟩]).length = 3 := by
    rw [hcollect]
    simp
  have hclaim := H [[⟨1, 1, 0⟩, ⟨2, 2, 0⟩], [⟨1, 1, 0⟩]] [⟨[1], [1]⟩, ⟨[1], [1]⟩]
    (by simp) (by simp) 0 (by omega)
  have hcode := notesWithCombinedScores_spec
    (collectAllNotes [[⟨1, 1, 0⟩, ⟨2, 2, 0⟩], [⟨1, 1, 0⟩]] [⟨[1], [1]⟩, ⟨[1], [1]⟩]) 0
    (by omega) (by omega)
  rw [hcollect] at hclaim hcode
  have hsum : ((([⟨⟨1, 1, 0⟩, 0, ⟨[1], [1]⟩⟩, ⟨⟨2, 2, 0⟩, 0, ⟨[1], [1]⟩⟩,
      ⟨⟨1, 1, 0⟩, 1, ⟨[1], [1]⟩⟩] : List AllNote).enum.filter (fun p => p.1 ≠ 0)).map
      (fun p => pairNoteDissonance
        (([⟨⟨1, 1, 0⟩, 0, ⟨[1], [1]⟩⟩, ⟨⟨2, 2, 0⟩, 0, ⟨[1], [1]⟩⟩,
          ⟨⟨1, 1, 0⟩, 1, ⟨[1], [1]⟩⟩] : List AllNote).getD 0 default) p.2)).sum =
      dissmeasure [1, 2] [1, 1] + dissmeasure [1, 1] [1, 1] := by
    simp [List.enum, List.enumFrom, pairNoteDissonance]
    norm_num
  have hspecv : specCombinedDissonance
      [⟨⟨1, 1, 0⟩, 0, ⟨[1], [1]⟩⟩, ⟨⟨2, 2, 0⟩, 0, ⟨[1], [1]⟩⟩, ⟨⟨1, 1, 0⟩, 1, ⟨[1], [1]⟩⟩]
      (([⟨⟨1, 1, 0⟩, 0, ⟨[1], [1]⟩⟩, ⟨⟨2, 2, 0⟩, 0, ⟨[1], [1]⟩⟩,
        ⟨⟨1, 1, 0⟩, 1, ⟨[1], [1]⟩⟩] : List AllNote).getD 0 default) = 0 := by
    simp only [specCombinedDissonance]
    norm_num [pairNoteDissonance]
    norm_num [dissmeasure_one_one]
  rw [hcode, hsum, hspecv] at hclaim
  rw [dissmeasure_one_one] at hclaim
  have hv := dissmeasure_one_two_pos
  simp only [List.length_cons, List.length_nil] at hclaim
  norm_num at hclaim
  linarith


/-! ## Roughness scanning (src/roughness.js, `scanRoughness` and the
optimizers built on it) -/

/-- Option record accepted by the roughness routines; `none` models an absent
JS field. -/
structure RoughOptions where
  rangeOctaves : Option ℝ := none
  granularityCents : Option ℝ := none
  centerFundamental : Option ℝ := none
  minRatio : Option ℝ := none
  targetCount : Option ℕ := none
  refineRangeCents : Option ℝ := none
  refineGranularityCents : Option ℝ := none

/-- JS `options.field || default`: an absent or zero numeric field falls back
to the default (any other value, including a negative one, is kept). -/
def resolveNum (x : Option ℝ) (d : ℝ) : ℝ :=
  match x with
  | none => d
  | some v => if v = 0 then d else v

/-- Same resolution for count-valued fields. -/
def resolveCount (x : Option ℕ) (d : ℕ) : ℕ :=
  match x with
  | none => d
  | some v => if v = 0 then d else v

/-- `Math.min(...series.map(ot => ot.frequency))`; JS yields `Infinity` on an
empty series (the embedding returns junk 0 there; the claims only use
nonempty series). -/
def minFreq (l : List RoughPartial) : ℝ :=
  match l with
  | [] => 0
  | p :: t => t.foldl (fun m q => min m q.frequency) p.frequency

/-- The pairwise-contribution threshold: half the critical bandwidth at the
lower frequency. -/
def getThreshold (f : ℝ) : ℝ := (0.24 / (0.021 * f + 19)) * 0.5

/-- Amplitude-weighted, thresholded roughness summed over all index pairs
`i < j` of a flat partial list (the double loop of `scanRoughness`). -/
def roughPairSum : List RoughPartial → ℝ
  | [] => 0
  | p :: rest =>
    (rest.map (fun q =>
      if |p.frequency - q.frequency| ≤ getThreshold (min p.frequency q.frequency) then
        roughness p.frequency q.frequency * p.amplitude * q.amplitude
      else 0)).sum + roughPairSum rest

/-- Fundamentals visited by `while (fund <= maxFund) { …; fund *= stepRatio }`.
The JS loop diverges when `stepRatio ≤ 1` or `fund ≤ 0 ≤ maxFund`; the guard
keeps the embedding total and agrees with the loop in every terminating
configuration. -/
def geomSeq (maxF r : ℝ) (fund : ℝ) : List ℝ :=
  if h : fund ≤ maxF ∧ 1 < r ∧ 0 < fund then
    fund :: geomSeq maxF r (fund * r)
  else []
termination_by Nat.floor ((Real.log maxF - Real.log fund) / Real.log r + 1)
decreasing_by
  obtain ⟨h1, h2, h3⟩ := h
  have hlr : 0 < Real.log r := Real.log_pos h2
  have hle : Real.log fund ≤ Real.log maxF := Real.log_le_log h3 h1
  have ht : 0 ≤ (Real.log maxF - Real.log fund) / Real.log r :=
    div_nonneg (by linarith) hlr.le
  have key : (Real.log maxF - Real.log (fund * r)) / Real.log r + 1 =
      (Real.log maxF - Real.log fund) / Real.log r := by
    rw [Real.log_mul (ne_of_gt h3) (ne_of_gt (lt_trans one_pos h2))]
    field_simp
    ring
  rw [key, Nat.floor_add_one ht]
  omega

/-- Every visited fundamental is positive (it is only consed under the
guard). -/
theorem geomSeq_pos (maxF r fund : ℝ) : ∀ x ∈ geomSeq maxF r fund, 0 < x := by
  by_cases h : fund ≤ maxF ∧ 1 < r ∧ 0 < fund
  · rw [geomSeq, dif_pos h]
    intro x hx
    rcases List.mem_cons.1 hx with rfl | hx'
    · exact h.2.2
    · exact geomSeq_pos maxF r (fund * r) x hx'
  · rw [geomSeq, dif_neg h]
    intro x hx
    exact absurd hx (List.not_mem_nil x)
termination_by Nat.floor ((Real.log maxF - Real.log fund) / Real.log r + 1)
decreasing_by
  obtain ⟨h1, h2, h3⟩ := h
  have hlr : 0 < Real.log r := Real.log_pos h2
  have hle : Real.log fund ≤ Real.log maxF := Real.log_le_log h3 h1
  have ht : 0 ≤ (Real.log maxF - Real.log fund) / Real.log r :=
    div_nonneg (by linarith) hlr.le
  have key : (Real.log maxF - Real.log (fund * r)) / Real.log r + 1 =
      (Real.log maxF - Real.log fund) / Real.log r := by
    rw [Real.log_mul (ne_of_gt h3) (ne_of_gt (lt_trans one_pos h2))]
    field_simp
    ring
  rw [key, Nat.floor_add_one ht]
  omega

/-- `scanRoughness(primarySeries, secondarySeriesArr, options)`
(src/roughness.js lines 33–93): shift every series so the primary sits at the
candidate fundamental and total the thresholded pairwise roughness. -/
def scanRoughness (primarySeries : List RoughPartial)
    (secondarySeriesArr : List (List RoughPartial)) (options : RoughOptions) :
    List RoughPoint :=
  let rangeOctaves := resolveNum options.rangeOctaves 2
  let granularityCents := resolveNum options.granularityCents 5
  let fundamental := resolveNum options.centerFundamental (minFreq primarySeries)
  let minFund := fundamental / (2:ℝ) ^ (rangeOctaves / 2)
  let maxFund := fundamental * (2:ℝ) ^ (rangeOctaves / 2)
  let stepRatio := (2:ℝ) ^ (granularityCents / 1200)
  (geomSeq maxFund stepRatio minFund).map (fun fund =>
    let shiftedAll := (primarySeries :: secondarySeriesArr).join.map
      (fun ot => (⟨ot.frequency * (fund / fundamental), ot.amplitude⟩ : RoughPartial))
    ⟨fund, roughPairSum shiftedAll⟩)

/-- The geometric scan starts whenever its guard holds, so the roughness scan
is nonempty for a positive center, non-negative octave range and positive
granularity. -/
theorem scanRoughness_ne_nil (primarySeries : List RoughPartial)
    (secondarySeriesArr : List (List RoughPartial)) (options : RoughOptions)
    (hfund : 0 < resolveNum options.centerFundamental (minFreq primarySeries))
    (hro : 0 ≤ resolveNum options.rangeOctaves 2)
    (hgc : 0 < resolveNum options.granularityCents 5) :
    scanRoughness primarySeries secondarySeriesArr options ≠ [] := by
  unfold scanRoughness
  simp only [ne_eq, List.map_eq_nil_iff]
  rw [geomSeq, dif_pos]
  · simp
  · refine ⟨?_, ?_, ?_⟩
    · have h1 : (1:ℝ) ≤ (2:ℝ) ^ (resolveNum options.rangeOctaves 2 / 2) :=
        Real.one_le_rpow (by norm_num) (by linarith)
      have hpow : (0:ℝ) < (2:ℝ) ^ (resolveNum options.rangeOctaves 2 / 2) :=
        Real.rpow_pos_of_pos (by norm_num) _
      calc resolveNum options.centerFundamental (minFreq primarySeries) /
            (2:ℝ) ^ (resolveNum options.rangeOctaves 2 / 2)
          ≤ resolveNum options.centerFundamental (minFreq primarySeries) := by
            rw [div_le_iff hpow]
            nlinarith
        _ ≤ resolveNum options.centerFundamental (minFreq primarySeries) *
            (2:ℝ) ^ (resolveNum options.rangeOctaves 2 / 2) := by
            nlinarith
    · rw [Real.one_lt_rpow_iff_of_pos (by norm_num)]
      left
      constructor
      · norm_num
      · positivity
    · positivity

/-- The fundamentals in a roughness scan are positive. -/
theorem scanRoughness_fund_pos (primarySeries : List RoughPartial)
    (secondarySeriesArr : List (List RoughPartial)) (options : RoughOptions) :
    ∀ pt ∈ scanRoughness primarySeries secondarySeriesArr options, 0 < pt.fundamental := by
  intro pt hpt
  unfold scanRoughness at hpt
  simp only [List.mem_map] at hpt
  rcases hpt with ⟨f, hf, rfl⟩
  exact geomSeq_pos _ _ _ f hf

/-- One step of the running weighted-minimum scan of
`findMinRoughnessFundamental` (`none` models the initial JS `Infinity`). -/
def argminStep (w : ℝ → ℝ) (st : Option RoughPoint) (pt : RoughPoint) : Option RoughPoint :=
  match st with
  | none => some pt
  | some cur => if pt.totalRoughness / (w pt.fundamental + 1e-6) <
      cur.totalRoughness / (w cur.fundamental + 1e-6) then some pt else st

/-- The weighted argmin loop. -/
def argminWeighted (w : ℝ → ℝ) (pts : List RoughPoint) : Option RoughPoint :=
  pts.foldl (argminStep w) none

theorem argminStep_result (w : ℝ → ℝ) :
    ∀ (pts : List RoughPoint) (st : Option RoughPoint),
      pts.foldl (argminStep w) st = st ∨
        ∃ pt ∈ pts, pts.foldl (argminStep w) st = some pt := by
  intro pts
  induction pts with
  | nil => intro st; exact Or.inl rfl
  | cons pt rest ih =>
    intro st
    rw [List.foldl_cons]
    rcases ih (argminStep w st pt) with h | ⟨q, hq, heq⟩
    · rw [h]
      rcases st with _ | cur
      · exact Or.inr ⟨pt, List.mem_cons_self _ _, rfl⟩
      · by_cases hlt : pt.totalRoughness / (w pt.fundamental + 1e-6) <
            cur.totalRoughness / (w cur.fundamental + 1e-6)
        · refine Or.inr ⟨pt, List.mem_cons_self _ _, ?_⟩
          simp [argminStep, hlt]
        · left
          simp [argminStep, hlt]
    · exact Or.inr ⟨q, List.mem_cons_of_mem _ hq, heq⟩

/-- The weighted argmin of a nonempty scan exists and is one of its points. -/
theorem argminWeighted_mem (w : ℝ → ℝ) (pts : List RoughPoint) (h : pts ≠ []) :
    ∃ pt ∈ pts, argminWeighted w pts = some pt := by
  rcases List.exists_cons_of_ne_nil h with ⟨p, rest, rfl⟩
  unfold argminWeighted
  rw [List.foldl_cons]
  have hstep : argminStep w none p = some p := rfl
  rw [hstep]
  rcases argminStep_result w rest (some p) with heq | ⟨q, hq, heq⟩
  · rw [heq]
    exact ⟨p, List.mem_cons_self _ _, rfl⟩
  · rw [heq]
    exact ⟨q, List.mem_cons_of_mem _ hq, heq ▸ rfl⟩

/-- `findMinRoughnessFundamental` (src/roughness.js lines 104–166): coarse
weighted argmin, then a refined scan centered there; returns `null` exactly
when the relevant scan has no points. -/
def findMinRoughnessFundamental (primarySeries : List RoughPartial)
    (secondarySeriesArr : List (List RoughPartial)) (options : RoughOptions) :
    Option RoughPoint :=
  let curve := scanRoughness primarySeries secondarySeriesArr options
  if curve.length = 0 then none
  else
    let fundamental := minFreq primarySeries
    let minFund := (curve.headD ⟨0, 0⟩).fundamental
    let maxFund := (curve.getLast?.getD ⟨0, 0⟩).fundamental
    let range := maxFund - minFund
    let triangleWeight := fun f => max 0 (1 - |f - fundamental| / (range / 2))
    match argminWeighted triangleWeight curve with
    | none => none
    | some minVal =>
      let refineRangeCents := resolveNum options.refineRangeCents 20
      let refineGranularityCents := resolveNum options.refineGranularityCents 0.5
      let centerFund := minVal.fundamental
      let minRefineFund := centerFund * (2:ℝ) ^ (-refineRangeCents / 2400)
      let maxRefineFund := centerFund * (2:ℝ) ^ (refineRangeCents / 2400)
      let refinedCurve := scanRoughness primarySeries secondarySeriesArr
        { rangeOctaves := some (Real.logb 2 (maxRefineFund / minRefineFund)),
          granularityCents := some refineGranularityCents,
          centerFundamental := some centerFund }
      argminWeighted triangleWeight refinedCurve


/-- C9 (amended): the optimizer returns `null` when the coarse scan is empty,
and returns a `{fundamental, totalRoughness}` record whenever the coarse scan
is nonempty and the resolved refinement options are positive (as at every
repository call site).  A negative `refineRangeCents` inverts the refined
window and yields `null` despite a nonempty coarse scan. -/
theorem findMinRoughnessFundamental_spec (primary : List RoughPartial)
    (secondaries : List (List RoughPartial)) (opts : RoughOptions) :
    (scanRoughness primary secondaries opts = [] →
      findMinRoughnessFundamental primary secondaries opts = none) ∧
    (scanRoughness primary secondaries opts ≠ [] →
      0 < resolveNum opts.refineRangeCents 20 →
      0 < resolveNum opts.refineGranularityCents 0.5 →
      ∃ rec, findMinRoughnessFundamental primary secondaries opts = some rec) := by
  constructor
  · intro h
    simp [findMinRoughnessFundamental, h]
  · intro hne hrr hrg
    simp only [findMinRoughnessFundamental]
    rw [if_neg (by simpa [List.length_eq_zero] using hne)]
    obtain ⟨minVal, hmem, heq⟩ :=
      argminWeighted_mem _ (scanRoughness primary secondaries opts) hne
    rw [heq]
    dsimp only
    have hcenter : 0 < minVal.fundamental :=
      scanRoughness_fund_pos primary secondaries opts minVal hmem
    have hratio : (minVal.fundamental *
          (2:ℝ) ^ (resolveNum opts.refineRangeCents 20 / 2400)) /
        (minVal.fundamental *
          (2:ℝ) ^ (-resolveNum opts.refineRangeCents 20 / 2400)) =
        (2:ℝ) ^ (resolveNum opts.refineRangeCents 20 / 1200) := by
      rw [mul_div_mul_left _ _ (ne_of_gt hcenter), ← Real.rpow_sub (by norm_num)]
      ring_nf
    have hlogb : Real.logb 2 ((minVal.fundamental *
          (2:ℝ) ^ (resolveNum opts.refineRangeCents 20 / 2400)) /
        (minVal.fundamental *
          (2:ℝ) ^ (-resolveNum opts.refineRangeCents 20 / 2400))) =
        resolveNum opts.refineRangeCents 20 / 1200 := by
      rw [hratio, Real.logb_rpow (by norm_num) (by norm_num)]
    rw [hlogb]
    have hrefne : scanRoughness primary secondaries
        { rangeOctaves := some (resolveNum opts.refineRangeCents 20 / 1200),
          granularityCents := some (resolveNum opts.refineGranularityCents 0.5),
          centerFundamental := some minVal.fundamental } ≠ [] := by
      apply scanRoughness_ne_nil
      · show 0 < resolveNum (some minVal.fundamental) (minFreq primary)
        rw [resolveNum, if_neg (ne_of_gt hcenter)]
        exact hcenter
      · show 0 ≤ resolveNum (some (resolveNum opts.refineRangeCents 20 / 1200)) 2
        rw [resolveNum, if_neg (by positivity)]
        positivity
      · show 0 < resolveNum (some (resolveNum opts.refineGranularityCents 0.5)) 5
        rw [resolveNum, if_neg (ne_of_gt hrg)]
        exact hrg
    obtain ⟨rec, _, hrec⟩ := argminWeighted_mem _ _ hrefne
    exact ⟨rec, hrec⟩

/-- Witness for the amended C9 theorem: a one-partial primary, no
secondaries, default options. -/
theorem findMinRoughnessFundamental_spec_witness :
    scanRoughness [⟨1, 1⟩] [] {} ≠ [] ∧
    ∃ rec, findMinRoughnessFundamental [⟨1, 1⟩] [] {} = some rec := by
  have hne : scanRoughness [⟨1, 1⟩] [] {} ≠ [] := by
    apply scanRoughness_ne_nil
    · show (0:ℝ) < resolveNum none (minFreq [⟨1, 1⟩])
      norm_num [resolveNum, minFreq]
    · show (0:ℝ) ≤ resolveNum none 2
      norm_num [resolveNum]
    · show (0:ℝ) < resolveNum none 5
      norm_num [resolveNum]
  exact ⟨hne, (findMinRoughnessFundamental_spec [⟨1, 1⟩] [] {}).2 hne
    (by norm_num [resolveNum]) (by norm_num [resolveNum])⟩

/-- C9 counterexample: with a nonempty coarse scan but
`refineRangeCents = -2400` (kept by the JS `||` resolution since it is
truthy), the refined window is inverted, the refined scan is empty, and the
function returns `null` rather than a record. -/
theorem findMinRoughnessFundamental_claim_counterexample :
    ¬ (∀ (primary : List RoughPartial) (secondaries : List (List RoughPartial))
      (opts : RoughOptions), scanRoughness primary secondaries opts ≠ [] →
      ∃ rec, findMinRoughnessFundamental primary secondaries opts = some rec) := by
  intro H
  have hne : scanRoughness [⟨1, 1⟩] [] { refineRangeCents := some (-2400) } ≠ [] := by
    apply scanRoughness_ne_nil
    · show (0:ℝ) < resolveNum none (minFreq [⟨1, 1⟩])
      norm_num [resolveNum, minFreq]
    · show (0:ℝ) ≤ resolveNum none 2
      norm_num [resolveNum]
    · show (0:ℝ) < resolveNum none 5
      norm_num [resolveNum]
  obtain ⟨rec, hrec⟩ := H [⟨1, 1⟩] [] { refineRangeCents := some (-2400) } hne
  have hnone : findMinRoughnessFundamental [⟨1, 1⟩] []
      { refineRangeCents := some (-2400) } = none := by
    simp only [findMinRoughnessFundamental]
    rw [if_neg (by simpa [List.length_eq_zero] using hne)]
    obtain ⟨minVal, hmem, heq⟩ := argminWeighted_mem _
      (scanRoughness [⟨1, 1⟩] [] { refineRangeCents := some (-2400) }) hne
    rw [heq]
    dsimp only
    have hcenter : 0 < minVal.fundamental :=
      scanRoughness_fund_pos _ _ _ minVal hmem
    have hres : resolveNum (some (-2400 : ℝ)) 20 = -2400 := by
      norm_num [resolveNum]
    have hres2 : (resolveNum (some (-2400 : ℝ)) 20 : ℝ) / 2400 = -1 := by
      rw [hres]
      norm_num
    have hexp : (resolveNum (some (-2400 : ℝ)) 20 / 2400 -
        -resolveNum (some (-2400 : ℝ)) 20 / 2400 : ℝ) = -2 := by
      rw [hres]
      norm_num
    have hlogb : Real.logb 2 ((minVal.fundamental *
          (2:ℝ) ^ (resolveNum (some (-2400:ℝ)) 20 / 2400)) /
        (minVal.fundamental *
          (2:ℝ) ^ (-resolveNum (some (-2400:ℝ)) 20 / 2400))) = -2 := by
      rw [mul_div_mul_left _ _ (ne_of_gt hcenter), ← Real.rpow_sub (by norm_num), hexp]
      rw [Real.logb_rpow (by norm_num) (by norm_num)]
    rw [hlogb]
    have hscanempty : scanRoughness [⟨1, 1⟩] []
        { rangeOctaves := some (-2 : ℝ),
          granularityCents := some (resolveNum none 0.5),
          centerFundamental := some minVal.fundamental } = [] := by
      simp only [scanRoughness]
      have hro : resolveNum (some (-2 : ℝ)) 2 = -2 := by norm_num [resolveNum]
      have hcf : resolveNum (some minVal.fundamental) (minFreq [⟨1, 1⟩]) =
          minVal.fundamental := by
        rw [resolveNum, if_neg (ne_of_gt hcenter)]
      rw [hro, hcf]
      have hpow : ((2:ℝ)) ^ ((-2:ℝ) / 2) = 2⁻¹ := by
        rw [show ((-2:ℝ)/2) = (-1:ℝ) by norm_num, Real.rpow_neg_one]
      rw [hpow, geomSeq, dif_neg]
      · simp
      · rintro ⟨hA, -, -⟩
        rw [div_eq_mul_inv, inv_inv] at hA
        nlinarith [hcenter]
    rw [hscanempty]
    rfl
  rw [hnone] at hrec
  exact absurd hrec (by simp)

/-! ## The roughness-based `findScale` (src/roughness.js lines 176–274) -/

/-- The amplitude-descending sort comparator `(a, b) => b.amplitude - a.amplitude`. -/
def ampDesc (a b : RoughPartial) : Prop := b.amplitude ≤ a.amplitude

instance : IsTotal RoughPartial ampDesc := ⟨fun a b => le_total b.amplitude a.amplitude⟩

instance : IsTrans RoughPartial ampDesc := ⟨fun _ _ _ h h' => le_trans h' h⟩

/-- The special-branch selection loop: break once `targetCount` frequencies
are selected (checked at the top of each iteration), otherwise push the
candidate's frequency when it keeps ratio `≥ minRatio` with every
already-selected frequency. -/
def selOwnGo (minRatio : ℝ) (targetCount : ℕ) :
    List RoughPartial → List ℝ → List ℝ
  | [], sel => sel
  | c :: rest, sel =>
    if targetCount ≤ sel.length then sel
    else if ∀ s ∈ sel, minRatio ≤ max c.frequency s / min c.frequency s then
      selOwnGo minRatio targetCount rest (sel ++ [c.frequency])
    else selOwnGo minRatio targetCount rest sel

/-- `Math.min(...xs)` as an `Option`-valued fold (`none` stands for the
`Infinity` the JS spread yields on an empty list). -/
def mathMin (l : List ℝ) : Option ℝ :=
  l.foldl (fun acc x =>
    match acc with
    | none => some x
    | some m => some (min m x)) none

/-- The plain running-minimum loop over a refined curve: `none` models the
initial `null`/`Infinity` pair, so the first point always seeds the minimum
(every accumulated roughness is finite). -/
def argminPlain (l : List RoughPoint) : Option RoughPoint :=
  l.foldl (fun acc pt =>
    match acc with
    | none => some pt
    | some best => if pt.totalRoughness < best.totalRoughness then some pt else acc) none

/-- The `totalRoughness`-ascending sort comparator. -/
def roughByTotal (a b : RoughPoint) : Prop := a.totalRoughness ≤ b.totalRoughness

/-- The normal-branch selection loop over roughness minima: same break and
ratio logic as the special branch, but whole curve points are pushed. -/
def selRoughGo (minRatio : ℝ) (targetCount : ℕ) :
    List RoughPoint → List RoughPoint → List RoughPoint
  | [], sel => sel
  | c :: rest, sel =>
    if targetCount ≤ sel.length then sel
    else if ∀ s ∈ sel, minRatio ≤
        max c.fundamental s.fundamental / min c.fundamental s.fundamental then
      selRoughGo minRatio targetCount rest (sel ++ [c])
    else selRoughGo minRatio targetCount rest sel

/-- `findScale(primarySeries, secondarySeriesArr, options)`
(src/roughness.js lines 176–274), named `findScaleRough` here to keep it
apart from the dissonance-curve `findScale`.  With no secondary series the
primary partials inside the scan window are sorted by descending amplitude,
greedily thinned by the ratio constraint and returned frequency-sorted;
otherwise the roughness curve's local (or, as fallback, global) minima are
roughness-sorted, ratio-thinned and refined by a centered rescan. -/
def findScaleRough (primarySeries : List RoughPartial)
    (secondarySeriesArr : List (List RoughPartial)) (options : RoughOptions) :
    List ℝ :=
  let rangeOctaves := resolveNum options.rangeOctaves 2
  let granularityCents := resolveNum options.granularityCents 5
  let minRatio := resolveNum options.minRatio ((2:ℝ) ^ ((100:ℝ) / 1200))
  let targetCount := resolveCount options.targetCount 7
  let refineRangeCents := resolveNum options.refineRangeCents 20
  let refineGranularityCents := resolveNum options.refineGranularityCents 0.5
  if secondarySeriesArr.length = 0 then
    let fundamental := minFreq primarySeries
    let rangeMin := fundamental / (2:ℝ) ^ (rangeOctaves / 2)
    let rangeMax := fundamental * (2:ℝ) ^ (rangeOctaves / 2)
    let candidates := (primarySeries.filter
      (fun ot => rangeMin ≤ ot.frequency ∧ ot.frequency ≤ rangeMax)).insertionSort ampDesc
    (selOwnGo minRatio targetCount candidates []).insertionSort (· ≤ ·)
  else
    let curve := scanRoughness primarySeries secondarySeriesArr
      { rangeOctaves := some rangeOctaves, granularityCents := some granularityCents }
    if curve.length = 0 then []
    else
      let localMinima := ((List.range curve.length).filter (fun i =>
        0 < i ∧ i + 1 < curve.length ∧
        (curve.getD i ⟨0, 0⟩).totalRoughness < (curve.getD (i - 1) ⟨0, 0⟩).totalRoughness ∧
        (curve.getD i ⟨0, 0⟩).totalRoughness <
          (curve.getD (i + 1) ⟨0, 0⟩).totalRoughness)).map (fun i => curve.getD i ⟨0, 0⟩)
      let minima := if localMinima.length = 0 then
          match mathMin (curve.map RoughPoint.totalRoughness) with
          | none => []
          | some mr => curve.filter (fun pt => pt.totalRoughness = mr)
        else localMinima
      let sortedMinima := minima.insertionSort roughByTotal
      let selected := selRoughGo minRatio targetCount sortedMinima []
      selected.filterMap (fun m =>
        let centerFund := m.fundamental
        let minRefineFund := centerFund * (2:ℝ) ^ (-refineRangeCents / 2400)
        let maxRefineFund := centerFund * (2:ℝ) ^ (refineRangeCents / 2400)
        let refinedCurve := scanRoughness primarySeries secondarySeriesArr
          { rangeOctaves := some (Real.logb 2 (maxRefineFund / minRefineFund)),
            granularityCents := some refineGranularityCents,
            centerFundamental := some centerFund }
        (argminPlain refinedCurve).map RoughPoint.fundamental)

/-- The selection loop never grows past `targetCount` (the break is checked
before every push, and a push happens only below the cap). -/
theorem selOwnGo_length_le (minRatio : ℝ) (tc : ℕ) (cands : List RoughPartial) :
    ∀ sel : List ℝ, sel.length ≤ tc → (selOwnGo minRatio tc cands sel).length ≤ tc := by
  induction cands with
  | nil => intro sel h; simpa [selOwnGo] using h
  | cons c rest ih =>
    intro sel h
    simp only [selOwnGo]
    split_ifs with h1 h2
    · exact h
    · exact ih (sel ++ [c.frequency])
        (by simp only [List.length_append, List.length_singleton]; omega)
    · exact ih sel h

/-- Everything the selection loop returns came from the accumulator or is
some candidate's frequency. -/
theorem selOwnGo_mem (minRatio : ℝ) (tc : ℕ) (cands : List RoughPartial) :
    ∀ sel : List ℝ, ∀ x ∈ selOwnGo minRatio tc cands sel,
      x ∈ sel ∨ ∃ c ∈ cands, x = c.frequency := by
  induction cands with
  | nil =>
    intro sel x hx
    simp only [selOwnGo] at hx
    exact Or.inl hx
  | cons c rest ih =>
    intro sel x hx
    simp only [selOwnGo] at hx
    split_ifs at hx with h1 h2
    · exact Or.inl hx
    · rcases ih (sel ++ [c.frequency]) x hx with hmem | ⟨d, hd, rfl⟩
      · rcases List.mem_append.1 hmem with h | h
        · exact Or.inl h
        · exact Or.inr ⟨c, List.mem_cons_self _ _, by simpa using h⟩
      · exact Or.inr ⟨d, List.mem_cons_of_mem _ hd, rfl⟩
    · rcases ih sel x hx with hmem | ⟨d, hd, rfl⟩
      · exact Or.inl hmem
      · exact Or.inr ⟨d, List.mem_cons_of_mem _ hd, rfl⟩

/-- The every-candidate ratio check preserves the pairwise ratio invariant
(the relation is symmetric because it compares `max`/`min`). -/
theorem selOwnGo_pairwise (minRatio : ℝ) (tc : ℕ) (cands : List RoughPartial) :
    ∀ sel : List ℝ, sel.Pairwise (fun a b => minRatio ≤ max a b / min a b) →
      (selOwnGo minRatio tc cands sel).Pairwise
        (fun a b => minRatio ≤ max a b / min a b) := by
  induction cands with
  | nil => intro sel h; simpa [selOwnGo] using h
  | cons c rest ih =>
    intro sel h
    simp only [selOwnGo]
    split_ifs with h1 h2
    · exact h
    · refine ih (sel ++ [c.frequency]) ?_
      rw [List.pairwise_append]
      refine ⟨h, List.pairwise_singleton _ _, ?_⟩
      intro a ha b hb
      have hb' := List.mem_singleton.1 hb
      subst hb'
      have hr := h2 a ha
      rwa [max_comm c.frequency a, min_comm c.frequency a] at hr
    · exact ih sel h

/-- C10: with no secondary series, the roughness `findScale` never consults a
roughness scan and its output is a non-decreasing list of at most
`targetCount` frequencies, each the frequency of a primary partial lying in
the scan window, with every pair of returned frequencies at ratio
`≥ minRatio`. -/
theorem findScaleRough_no_secondaries (primary : List RoughPartial) (opts : RoughOptions) :
    (findScaleRough primary [] opts).Sorted (· ≤ ·) ∧
    (findScaleRough primary [] opts).length ≤ resolveCount opts.targetCount 7 ∧
    (∀ f ∈ findScaleRough primary [] opts,
      ∃ c ∈ primary, f = c.frequency ∧
        minFreq primary / (2:ℝ) ^ (resolveNum opts.rangeOctaves 2 / 2) ≤ c.frequency ∧
        c.frequency ≤ minFreq primary * (2:ℝ) ^ (resolveNum opts.rangeOctaves 2 / 2)) ∧
    (findScaleRough primary [] opts).Pairwise
      (fun a b => resolveNum opts.minRatio ((2:ℝ) ^ ((100:ℝ) / 1200)) ≤
        max a b / min a b) := by
  have hdef : findScaleRough primary [] opts =
      (selOwnGo (resolveNum opts.minRatio ((2:ℝ) ^ ((100:ℝ) / 1200)))
        (resolveCount opts.targetCount 7)
        ((primary.filter (fun ot =>
          minFreq primary / (2:ℝ) ^ (resolveNum opts.rangeOctaves 2 / 2) ≤ ot.frequency ∧
          ot.frequency ≤ minFreq primary *
            (2:ℝ) ^ (resolveNum opts.rangeOctaves 2 / 2))).insertionSort ampDesc)
        []).insertionSort (· ≤ ·) := rfl
  refine ⟨?_, ?_, ?_, ?_⟩
  · rw [hdef]
    exact List.sorted_insertionSort _ _
  · rw [hdef, List.length_insertionSort]
    exact selOwnGo_length_le _ _ _ [] (Nat.zero_le _)
  · intro f hf
    rw [hdef] at hf
    have hf' := (List.perm_insertionSort (α := ℝ) (· ≤ ·) _).mem_iff.1 hf
    rcases selOwnGo_mem _ _ _ [] f hf' with hmem | ⟨c, hc, rfl⟩
    · exact absurd hmem (List.not_mem_nil f)
    · have hc' := (List.perm_insertionSort ampDesc _).mem_iff.1 hc
      simp only [List.mem_filter, decide_eq_true_eq] at hc'
      exact ⟨c, hc'.1, rfl, hc'.2.1, hc'.2.2⟩
  · rw [hdef]
    exact ((List.perm_insertionSort (α := ℝ) (· ≤ ·) _).pairwise_iff
        (fun {a b} hab => by rwa [max_comm, min_comm] at hab)).2
      (selOwnGo_pairwise _ _ _ [] List.Pairwise.nil)

/-- Witness for C10 at a one-partial primary and default options. -/
theorem findScaleRough_no_secondaries_witness :
    (findScaleRough [⟨1, 1⟩] [] {}).Sorted (· ≤ ·) ∧
    (findScaleRough [⟨1, 1⟩] [] {}).length ≤
      resolveCount ({} : RoughOptions).targetCount 7 ∧
    (∀ f ∈ findScaleRough [⟨1, 1⟩] [] {},
      ∃ c ∈ [(⟨1, 1⟩ : RoughPartial)], f = c.frequency ∧
        minFreq [⟨1, 1⟩] /
          (2:ℝ) ^ (resolveNum ({} : RoughOptions).rangeOctaves 2 / 2) ≤ c.frequency ∧
        c.frequency ≤ minFreq [⟨1, 1⟩] *
          (2:ℝ) ^ (resolveNum ({} : RoughOptions).rangeOctaves 2 / 2)) ∧
    (findScaleRough [⟨1, 1⟩] [] {}).Pairwise
      (fun a b => resolveNum ({} : RoughOptions).minRatio ((2:ℝ) ^ ((100:ℝ) / 1200)) ≤
        max a b / min a b) :=
  findScaleRough_no_secondaries [⟨1, 1⟩] {}

/-! ## `Instrument` and `InstCollection` (src/instrument.js,
src/unnamed/part_003) -/

/-- Constructor parameters for one instrument: the requested fundamental, the
six shape parameters and the optional `maxHarmonics` (JS `|| 32`). -/
structure InstParams where
  fundamental : ℝ
  harmonicPurity : ℝ
  spectralBalance : ℝ
  oddEvenBias : ℝ
  formantStrength : ℝ
  spectralRichness : ℝ
  irregularity : ℝ
  maxHarmonics : Option ℕ := none

/-- An `Instrument`: the fundamental plus the relative and absolute series. -/
structure Instrument where
  fundamental : ℝ
  overtoneSeries : List Overtone
  absoluteSeries : List RoughPartial

/-- `new Instrument(...)` (src/instrument.js lines 17–44): generate the
overtone series (propagating the parameter-validation throw) and scale it to
absolute frequencies.  The absolute partial's `harmonic` tag is dropped since
no roughness consumer reads it. -/
def mkInstrument (fundamental hp sb oeb fs sr irr : ℝ) (maxHarmonics : ℕ) :
    Except String Instrument :=
  match generateOvertones hp sb oeb fs sr irr maxHarmonics with
  | .error e => .error e
  | .ok overtones =>
    .ok ⟨fundamental, overtones,
      overtones.map (fun ot => ⟨ot.ratio * fundamental, ot.amplitude⟩)⟩

/-- The fixed options the `InstCollection` constructor hands to the
roughness optimizer. -/
def instOptions : RoughOptions :=
  { rangeOctaves := some 0.5, granularityCents := some 2,
    refineRangeCents := some 20, refineGranularityCents := some 0.2 }

/-- The JS `result ? result.fundamental : fallback` selection of a
roughness-minimizing fundamental against one fixed secondary series. -/
def selectFund (primary : List RoughPartial) (secondary : List RoughPartial)
    (fallback : ℝ) : ℝ :=
  match findMinRoughnessFundamental primary [secondary] instOptions with
  | some r => r.fundamental
  | none => fallback

/-- The three instruments of a successfully constructed collection. -/
structure InstCollection where
  low : Instrument
  mid : Instrument
  high : Instrument

/-- `new InstCollection(lowParams, midParams, highParams)`
(src/unnamed/part_003 lines 43–150): build the low instrument, pick the mid
and high fundamentals by roughness minimization (falling back to the
requested fundamentals when the optimizer returns `null`), and throw —
constructing nothing — unless `fLow < fMid < fHigh`; only then is the high
instrument built and the collection assembled. -/
def instCollection (lowParams midParams highParams : InstParams) :
    Except String InstCollection :=
  match mkInstrument lowParams.fundamental lowParams.harmonicPurity
      lowParams.spectralBalance lowParams.oddEvenBias lowParams.formantStrength
      lowParams.spectralRichness lowParams.irregularity
      (resolveCount lowParams.maxHarmonics 32) with
  | .error e => .error e
  | .ok low =>
    match mkInstrument midParams.fundamental midParams.harmonicPurity
        midParams.spectralBalance midParams.oddEvenBias midParams.formantStrength
        midParams.spectralRichness midParams.irregularity
        (resolveCount midParams.maxHarmonics 32) with
    | .error e => .error e
    | .ok tempMid =>
      let fMid := selectFund tempMid.absoluteSeries low.absoluteSeries
        midParams.fundamental
      match mkInstrument fMid midParams.harmonicPurity midParams.spectralBalance
          midParams.oddEvenBias midParams.formantStrength midParams.spectralRichness
          midParams.irregularity (resolveCount midParams.maxHarmonics 32) with
      | .error e => .error e
      | .ok mid =>
        match mkInstrument highParams.fundamental highParams.harmonicPurity
            highParams.spectralBalance highParams.oddEvenBias
            highParams.formantStrength highParams.spectralRichness
            highParams.irregularity (resolveCount highParams.maxHarmonics 32) with
        | .error e => .error e
        | .ok tempHigh =>
          let fHigh := selectFund tempHigh.absoluteSeries mid.absoluteSeries
            highParams.fundamental
          if lowParams.fundamental < fMid ∧ fMid < fHigh then
            match mkInstrument fHigh highParams.harmonicPurity
                highParams.spectralBalance highParams.oddEvenBias
                highParams.formantStrength highParams.spectralRichness
                highParams.irregularity (resolveCount highParams.maxHarmonics 32) with
            | .error e => .error e
            | .ok high => .ok ⟨low, mid, high⟩
          else
            .error "Fundamental frequencies must be strictly ascending after roughness selection: low < mid < high"

/-- A successfully constructed instrument carries exactly the fundamental it
was asked for. -/
theorem mkInstrument_fundamental (f hp sb oeb fs sr irr : ℝ) (mh : ℕ)
    (inst : Instrument) (h : mkInstrument f hp sb oeb fs sr irr mh = .ok inst) :
    inst.fundamental = f := by
  unfold mkInstrument at h
  cases hg : generateOvertones hp sb oeb fs sr irr mh with
  | error e =>
    rw [hg] at h
    exact absurd h (by simp)
  | ok l =>
    rw [hg] at h
    simp only [Except.ok.injEq] at h
    rw [← h]

/-- C8: the `InstCollection` constructor either throws (returning no
collection at all) or yields a collection whose low, mid and high
fundamentals are strictly increasing — the ascending-order check guards the
only `.ok` exit. -/
theorem instCollection_ascending (lowParams midParams highParams : InstParams) :
    match instCollection lowParams midParams highParams with
    | .error _ => True
    | .ok c => c.low.fundamental < c.mid.fundamental ∧
        c.mid.fundamental < c.high.fundamental := by
  unfold instCollection
  cases h1 : mkInstrument lowParams.fundamental lowParams.harmonicPurity
      lowParams.spectralBalance lowParams.oddEvenBias lowParams.formantStrength
      lowParams.spectralRichness lowParams.irregularity
      (resolveCount lowParams.maxHarmonics 32) with
  | error e => trivial
  | ok low =>
    dsimp only
    cases h2 : mkInstrument midParams.fundamental midParams.harmonicPurity
        midParams.spectralBalance midParams.oddEvenBias midParams.formantStrength
        midParams.spectralRichness midParams.irregularity
        (resolveCount midParams.maxHarmonics 32) with
    | error e => trivial
    | ok tempMid =>
      dsimp only
      cases h3 : mkInstrument
          (selectFund tempMid.absoluteSeries low.absoluteSeries midParams.fundamental)
          midParams.harmonicPurity midParams.spectralBalance midParams.oddEvenBias
          midParams.formantStrength midParams.spectralRichness midParams.irregularity
          (resolveCount midParams.maxHarmonics 32) with
      | error e => trivial
      | ok mid =>
        dsimp only
        cases h4 : mkInstrument highParams.fundamental highParams.harmonicPurity
            highParams.spectralBalance highParams.oddEvenBias
            highParams.formantStrength highParams.spectralRichness
            highParams.irregularity (resolveCount highParams.maxHarmonics 32) with
        | error e => trivial
        | ok tempHigh =>
          dsimp only
          split_ifs with hcond
          · cases h5 : mkInstrument
                (selectFund tempHigh.absoluteSeries mid.absoluteSeries
                  highParams.fundamental)
                highParams.harmonicPurity highParams.spectralBalance
                highParams.oddEvenBias highParams.formantStrength
                highParams.spectralRichness highParams.irregularity
                (resolveCount highParams.maxHarmonics 32) with
            | error e => trivial
            | ok high =>
              have hlow := mkInstrument_fundamental _ _ _ _ _ _ _ _ _ h1
              have hmid := mkInstrument_fundamental _ _ _ _ _ _ _ _ _ h3
              have hhigh := mkInstrument_fundamental _ _ _ _ _ _ _ _ _ h5
              exact ⟨by rw [hlow, hmid]; exact hcond.1,
                by rw [hmid, hhigh]; exact hcond.2⟩
          · trivial

/-- Witness for C5 at `freq = amp = [1]`, `start = 0`, `end = 1`, `inc = 1`. -/
theorem generateDissonanceCurve_spec_witness :
    (0:ℝ) ≤ 1 ∧ (0:ℝ) < 1 ∧
    (generateDissonanceCurve [1] [1] 0 1 1 none).alphas.length =
      Nat.floor (((1:ℝ) - 0) / 1) + 1 :=
  ⟨by norm_num, by norm_num,
    (generateDissonanceCurve_spec [1] [1] 0 1 1 none (by norm_num) (by norm_num)).1⟩

end
